import Mathlib

/-!
Verification development for the graph-query subsystem of a RAG application
(`rag.py`): query parsing (`GraphContext.parse`), node resolution and path
building (`GraphContext.path`), graph deduplication (`GraphContext.deduplicate`
with `AutoId.valid`) and the orchestration (`GraphContext.__call__`).

Python strings are modelled as lists of characters (`PyStr`), covering the
ASCII behaviour of the string functions involved (`str.strip`, `str.lower`,
`str.split`, `str.startswith`, substring tests).  Similarity scores are
modelled as rationals.  Fallible Python operations (indexing an empty list,
calling a method on `None`) are modelled with `Option`, where `none` stands
for an exception escaping the subsystem.

The external collaborators (the embeddings store's `search`, `similarity`
and graph `search`, and the traversal-result structure) are not part of the
repository; they are modelled from the interface contracts in the
specification (ordered result lists; a traversal result with a stable scan
order, node attributes, per-source adjacency with directed edges, edge
addition with attribute merge, and cascading node deletion).
-/

abbrev PyStr := List Char

/-- Whitespace recognised by Python's `str.strip()` (ASCII fragment). -/
def isPySpace (c : Char) : Bool :=
  c == ' ' || c == '\t' || c == '\n' || c == '\r' || c == '\x0b' || c == '\x0c'

/-- Left half of Python `str.strip()`: drop leading whitespace. -/
def stripLeft (s : PyStr) : PyStr := s.dropWhile isPySpace

/-- Right half of Python `str.strip()`: drop trailing whitespace. -/
def stripRight (s : PyStr) : PyStr := (s.reverse.dropWhile isPySpace).reverse

/-- Python `str.strip()` with no argument: whitespace removed on both ends. -/
def pyStrip (s : PyStr) : PyStr := stripLeft (stripRight s)

/-- Python `str.lower()` on the ASCII fragment: `Char.toLower` maps `A`-`Z`
to `a`-`z` and leaves every other character unchanged, as CPython does on
ASCII text. -/
def pyLower (s : PyStr) : PyStr := s.map Char.toLower

/-- Worker for Python `str.split(sep)` with a non-empty separator: scan for
the leftmost occurrence of `sep`, emit the accumulated segment (kept in
reverse), and continue after the separator.  Matches are non-overlapping and
leftmost, exactly CPython's behaviour.  The extra fuel argument (always
instantiated with the string's length, which suffices) makes the recursion
structural, so the function evaluates inside the kernel. -/
def splitF (sep : List Char) : Nat → List Char → List Char → List (List Char)
  | _, [], acc => [acc.reverse]
  | 0, s, acc => [acc.reverse ++ s]
  | fuel + 1, c :: rest, acc =>
    if sep.isPrefixOf (c :: rest) then
      acc.reverse :: splitF sep fuel (rest.drop (sep.length - 1)) []
    else
      splitF sep fuel rest (c :: acc)

/-- Python `s.split(sep)` for a non-empty separator. -/
def pySplit (sep s : PyStr) : List PyStr := splitF sep s.length s []

/-- Python `sep in s` (substring containment) for a non-empty `sep`: the
split produces at least two parts exactly when the separator occurs. -/
def pyContains (sep s : PyStr) : Bool := 2 ≤ (pySplit sep s).length

/-- Python `sep.join(parts)`. -/
def pyJoin (sep : PyStr) : List PyStr → PyStr
  | [] => []
  | [x] => x
  | x :: y :: rest => x ++ sep ++ pyJoin sep (y :: rest)

/-- Python `s.split(sep, 1)`: split only at the first occurrence of the
separator, re-joining the remaining parts. -/
def pySplit1 (sep s : PyStr) : List PyStr :=
  match pySplit sep s with
  | [] => []
  | [x] => [x]
  | x :: rest => [x, pyJoin sep rest]

/-- Hexadecimal digit, as accepted by Python `int(s, 16)`. -/
def isHexDigit (c : Char) : Bool :=
  c.isDigit || ('a' ≤ c && c ≤ 'f') || ('A' ≤ c && c ≤ 'F')

/-- Tail of a hex-digit run: further digits, with single underscores allowed
between digits (PEP 515). -/
def hexTail : List Char → Bool
  | [] => true
  | '_' :: c :: rest => isHexDigit c && hexTail rest
  | c :: rest => isHexDigit c && hexTail rest

/-- Non-empty hex-digit run with single underscores between digits. -/
def hexBody (l : List Char) : Bool :=
  match l with
  | [] => false
  | c :: rest => isHexDigit c && hexTail rest

/-- Validity of Python `int(s, 16)`: optional surrounding whitespace, an
optional sign, an optional `0x`/`0X` marker (an underscore may follow it),
then hex digits with single underscores between digits. -/
def pyIntHexValid (s : PyStr) : Bool :=
  let t := pyStrip s
  let t1 := match t with
    | '+' :: r => r
    | '-' :: r => r
    | r => r
  match t1 with
  | '0' :: x :: r =>
    if x == 'x' || x == 'X' then
      match r with
      | '_' :: r2 => hexBody r2
      | _ => hexBody r
    else hexBody ('0' :: x :: r)
  | r => hexBody r

/-- Python `s.replace(pat, repl)` for a non-empty pattern: leftmost,
non-overlapping replacement everywhere. -/
def replaceAll (pat repl s : PyStr) : PyStr := pyJoin repl (pySplit pat s)

/-- Python `s.strip(chars)` for curly braces: drop leading and trailing
braces (any mix) on both ends. -/
def stripBraces (s : PyStr) : PyStr :=
  ((s.dropWhile (fun c => c == '\x7b' || c == '\x7d')).reverse.dropWhile
    (fun c => c == '\x7b' || c == '\x7d')).reverse

/-- Canonicalisation performed by Python's `uuid.UUID(hex)` constructor:
drop every occurrence of `urn:` and of `uuid:`, strip curly braces from both
ends, drop all hyphens. -/
def uuidCanon (s : PyStr) : PyStr :=
  replaceAll "-".data [] (stripBraces (replaceAll "uuid:".data []
    (replaceAll "urn:".data [] s)))

/-- `UUID(str(uid))` succeeds: the canonical form has exactly 32 characters
and parses as a base-16 integer.  The constructed `UUID` object is always
truthy, so success means `AutoId.valid` returns a truthy value. -/
def isUUIDStr (s : PyStr) : Bool :=
  (uuidCanon s).length == 32 && pyIntHexValid (uuidCanon s)

/-- Python `str.isdigit()` on the ASCII fragment: non-empty and all digits. -/
def pyIsDigitStr (s : PyStr) : Bool := !s.isEmpty && s.all Char.isDigit

namespace AutoId

/-- `AutoId.valid` from `rag.py`: true when `UUID(str(uid))` parses, or when
the uid is numeric.  (`isinstance(uid, int)` is absorbed into the
digit-string case: stored integer ids print as digit strings.) -/
def valid (uid : PyStr) : Bool := isUUIDStr uid || pyIsDigitStr uid

end AutoId

/-- The graph-query marker `"gq: "` from `GraphContext.parse`. -/
def gqMarker : PyStr := "gq: ".data

/-- The concept-chain delimiter `"->"` from `GraphContext.parse`. -/
def arrowSep : PyStr := "->".data

/-- One entry of the graph context assembled by `GraphContext.__call__`:
the `id` and `text` attributes of a surviving node (either may be absent,
`graph.attribute` returns `None` then). -/
structure CtxEntry where
  cid : Option PyStr
  ctext : Option PyStr
deriving DecidableEq

/-- Python truthiness of an optional string: `None` and `""` are falsy. -/
def pyTruthyStr : Option PyStr → Bool
  | none => false
  | some s => !s.isEmpty

/-- Python truthiness of an optional list: `None` and `[]` are falsy. -/
def pyTruthyList {α : Type} : Option (List α) → Bool
  | none => false
  | some l => !l.isEmpty

/-- `GraphContext.parse` from `rag.py`, clause by clause.  The result triple
is `(query, concepts, context)`; `context` is always `None` at parse time.
The second branch of the inner `match` is unreachable: when the marker is
contained in the last segment, `pySplit1` returns exactly two parts. -/
def GraphContext.parse (question : PyStr) :
    Option PyStr × Option (List PyStr) × Option (List CtxEntry) :=
  if pyContains arrowSep question
      || gqMarker.isPrefixOf (pyLower (pyStrip question)) then
    let concepts := (pySplit arrowSep (pyLower (pyStrip question))).map pyStrip
    if pyContains gqMarker (concepts.getLastD []) then
      let qparts := (pySplit1 gqMarker (concepts.getLastD [])).map pyStrip
      let cs0 := concepts.dropLast
      let cs1 := if (qparts.headD []).isEmpty then cs0 else cs0 ++ [qparts.headD []]
      match qparts with
      | _ :: q1 :: _ => (some q1, some cs1, none)
      | _ => (none, some cs1, none)
    else (none, some concepts, none)
  else (none, none, none)

/-- The Python `None` concept value and the empty concept list both denote
the empty concept sequence of the specification's `ParsedQuery` data model
(both are falsy and treated identically downstream). -/
def parsedConceptSeq (r : Option PyStr × Option (List PyStr) × Option (List CtxEntry)) :
    List PyStr := r.2.1.getD []

/-- Edge attributes: a Python dict of string keys and values, modelled as an
insertion-ordered association list. -/
abbrev EAttr := List (PyStr × PyStr)

/-- Python dict assignment `d[k] = v` on an insertion-ordered association
list: update the value in place when the key exists, append otherwise. -/
def assocInsert {α β : Type} [BEq α] : List (α × β) → α → β → List (α × β)
  | [], k, v => [(k, v)]
  | (k0, v0) :: rest, k, v =>
    if k0 == k then (k0, v) :: rest else (k0, v0) :: assocInsert rest k v

/-- Python `dict.update(other)`: merge `new` into `old`, overwriting
existing keys and appending fresh ones (networkx `add_edge` semantics for
an existing edge's attribute dict). -/
def attrMerge (old new : EAttr) : EAttr :=
  new.foldl (fun acc kv => assocInsert acc kv.1 kv.2) old

/-- The traversal result returned by `graph.search(path, graph=True)`,
modelled from the specification's collaborator contract: nodes are the
store's integer handles listed in scan order, node attributes are an
association list of `(node, name, value)` triples, and edges are directed
`(source, target, attributes)` triples.  Node handles are integers, so
Python truthiness of a handle is `≠ 0`. -/
structure Graph where
  nodes : List Nat
  nattrs : List (Nat × PyStr × PyStr)
  gedges : List (Nat × Nat × EAttr)
deriving DecidableEq

/-- `graph.attribute(node, name)`: the first matching attribute entry, or
`None` when absent. -/
def Graph.attr (g : Graph) (n : Nat) (a : PyStr) : Option PyStr :=
  (g.nattrs.find? (fun e => e.1 == n && e.2.1 == a)).map (fun e => e.2.2)

/-- `graph.count()`: number of nodes. -/
def Graph.count (g : Graph) : Nat := g.nodes.length

/-- `graph.edges(node)`: the adjacency dict of `node`, mapping each target
reachable by an outgoing edge to that edge's attributes (built like a Python
dict: later duplicate keys overwrite earlier ones; well-formed graphs have
no duplicate keys). -/
def pyAdj (g : Graph) (n : Nat) : List (Nat × EAttr) :=
  g.gedges.foldl (fun acc e => if e.1 == n then assocInsert acc e.2.1 e.2.2 else acc) []

/-- Lookup of a directed edge's attributes. -/
def edgeLookup (g : Graph) (s t : Nat) : Option EAttr :=
  (g.gedges.find? (fun e => e.1 == s && e.2.1 == t)).map (fun e => e.2.2)

/-- Replace the attributes of the first `(s, t)` edge by the merge of the
old attributes with `a`. -/
def replaceEdge : List (Nat × Nat × EAttr) → Nat → Nat → EAttr → List (Nat × Nat × EAttr)
  | [], _, _, _ => []
  | e :: rest, s, t, a =>
    if e.1 == s && e.2.1 == t then (e.1, e.2.1, attrMerge e.2.2 a) :: rest
    else e :: replaceEdge rest s t a

/-- `graph.addedge(source, target, **attributes)` (networkx semantics): if
the directed edge exists, merge the attribute dict into it; otherwise append
a new edge.  Both endpoints already exist as nodes at every call site. -/
def Graph.addedge (g : Graph) (s t : Nat) (a : EAttr) : Graph :=
  if g.gedges.any (fun e => e.1 == s && e.2.1 == t) then
    { g with gedges := replaceEdge g.gedges s t a }
  else
    { g with gedges := g.gedges ++ [(s, t, a)] }

/-- `graph.delete(nodes)`: remove the listed nodes, their attributes, and
every edge with a deleted source or target, preserving order elsewhere. -/
def Graph.delete (g : Graph) (ds : List Nat) : Graph :=
  { nodes := g.nodes.filter (fun n => !ds.elem n),
    nattrs := g.nattrs.filter (fun e => !ds.elem e.1),
    gedges := g.gedges.filter (fun e => !ds.elem e.1 && !ds.elem e.2.1) }

/-- The label derived for a scanned node in `GraphContext.deduplicate`:
`topic if AutoId.valid(uid) and topic else uid`.  A node without an `id`
attribute makes `AutoId.valid(None)` reach `None.isdigit()`, an uncaught
`AttributeError`, modelled as `none`. -/
def nodeLabel (g : Graph) (n : Nat) : Option PyStr :=
  match g.attr n "id".data with
  | none => none
  | some uid =>
    some (if AutoId.valid uid && pyTruthyStr (g.attr n "topic".data)
          then (g.attr n "topic".data).getD [] else uid)

/-- The label-to-primary map `topics` of `GraphContext.deduplicate`:
insertion-ordered dict from label to the node registered for it. -/
abbrev TopicsT := List (PyStr × Nat)

/-- The output label map `labels` of `GraphContext.deduplicate`:
insertion-ordered dict from surviving node to its display label. -/
abbrev LabelsT := List (Nat × PyStr)

/-- A similarity collaborator: `similarity(text, candidates)` returning
`(index, score)` pairs, best first (specification interface contract). -/
abbrev SimFn := PyStr → List PyStr → List (Nat × ℚ)

/-- Loop state of `GraphContext.deduplicate`: the (mutable) traversal
result, the `labels` output dict, the `topics` registry and the `deletes`
list. -/
structure DState where
  g : Graph
  labels : LabelsT
  topics : TopicsT
  dels : List Nat
deriving DecidableEq

/-- The primary-node computation of one deduplication step:
`pid, pscore = similarity(label, topicnames)[0] if topicnames else (0, 0.0)`
then `primary = topics[topicnames[pid]] if pscore >= threshold else None`.
`none` models an exception (indexing an empty similarity result, or an
out-of-range `pid`); `some none` is Python `None`; `some (some p)` is a
found primary node. -/
def stepPrimary (sim : SimFn) (θ : ℚ) (T : TopicsT) (labN : PyStr) : Option (Option Nat) :=
  let tnames := T.map Prod.fst
  match (if tnames.isEmpty then some (0, (0 : ℚ)) else (sim labN tnames).head?) with
  | none => none
  | some (pid, ps) =>
    if ps ≥ θ then
      match tnames.get? pid with
      | none => none
      | some key =>
        match List.lookup key T with
        | none => none
        | some p => some (some p)
    else some none

/-- Edge migration of a duplicate node: for every entry of the adjacency
dict of `node`, `if primary != target: graph.addedge(primary, target,
**attributes)`.  The adjacency dict is read before the loop; additions only
touch the primary's out-edges, so the iterated collection is unaffected, as
in the Python code. -/
def migrateEdges (g : Graph) (n p : Nat) : Graph :=
  (pyAdj g n).foldl
    (fun gc ta => if p ≠ ta.1 then gc.addedge p ta.1 ta.2 else gc) g

/-- One iteration of the scan loop of `GraphContext.deduplicate`.  The
Python test `if not primary:` uses truthiness: both `None` and the node
handle `0` take the register branch; only a non-zero primary handle takes
the merge branch. -/
def dedupStep (sim : SimFn) (θ : ℚ) (g : Graph) (lb : LabelsT) (T : TopicsT)
    (D : List Nat) (n : Nat) : Option DState :=
  match nodeLabel g n with
  | none => none
  | some labN =>
    match stepPrimary sim θ T labN with
    | none => none
    | some none => some ⟨g, assocInsert lb n labN, assocInsert T labN n, D⟩
    | some (some p) =>
      if p = 0 then some ⟨g, assocInsert lb n labN, assocInsert T labN n, D⟩
      else some ⟨migrateEdges g n p, lb, T, D ++ [n]⟩

/-- The scan loop of `GraphContext.deduplicate` over the node list in scan
order. -/
def dedupFold (sim : SimFn) (θ : ℚ) : List Nat → DState → Option DState
  | [], st => some st
  | n :: rest, st =>
    match dedupStep sim θ st.g st.labels st.topics st.dels n with
    | none => none
    | some st' => dedupFold sim θ rest st'

/-- `GraphContext.deduplicate(graph, threshold)`: scan all nodes, then
delete the collected duplicates, returning the mutated graph and the label
map. -/
def GraphContext.deduplicate (sim : SimFn) (g : Graph) (θ : ℚ) :
    Option (Graph × LabelsT) :=
  match dedupFold sim θ g.nodes ⟨g, [], [], []⟩ with
  | none => none
  | some st => some (st.g.delete st.dels, st.labels)

/-- One result of `embeddings.search(text, k)`: a row dict, of which only
the `id` field is read. -/
structure Hit where
  hid : PyStr
deriving DecidableEq

/-- An embeddings-search collaborator (specification interface contract:
ordered result list of length at most `k`). -/
abbrev SearchFn := PyStr → Nat → List Hit

/-- The node-resolution loop inside `GraphContext.path` for a concept list:
`self.embeddings.search(concept, 1)[0]["id"]` per concept, in order.  An
empty search result makes the `[0]` raise `IndexError`, modelled as `none`;
the first failing concept aborts, as in Python. -/
def resolveIds (es : SearchFn) : List PyStr → Option (List PyStr)
  | [] => some []
  | c :: rest =>
    match es c 1 with
    | [] => none
    | h :: _ => (resolveIds es rest).map (fun l => h.hid :: l)

/-- The anchor pattern rendered for one resolved id:
`f'({{id: "{uid}"}})'`. -/
def anchorPat (uid : PyStr) : PyStr :=
  "(\x7bid: \"".data ++ uid ++ "\"\x7d)".data

/-- Decimal rendering of the context limit, as Python `f"{self.context}"`
renders a non-negative int. -/
def natText (n : Nat) : PyStr := (Nat.repr n).data

/-- The final query assembly of `GraphContext.path`:
`ids = "-[*1..4]->".join(ids)` then
`f"MATCH P={ids} RETURN P LIMIT {self.context}"`. -/
def mkPathQuery (anchors : List PyStr) (ctx : Nat) : PyStr :=
  "MATCH P=".data ++ pyJoin "-[*1..4]->".data anchors
    ++ " RETURN P LIMIT ".data ++ natText ctx

/-- `GraphContext.path(question, concepts)`: resolve anchors either from the
concept list (one top hit each) or from a top-3 search on the free query,
then join them into the MATCH query.  The `question = None` case in the
else-branch would pass `None` to the external search; it is unreachable
from `__call__` and modelled as an exception. -/
def GraphContext.path (es : SearchFn) (ctx : Nat) (question : Option PyStr)
    (concepts : Option (List PyStr)) : Option PyStr :=
  if pyTruthyList concepts then
    match resolveIds es (concepts.getD []) with
    | none => none
    | some ids => some (mkPathQuery (ids.map anchorPat) ctx)
  else
    match question with
    | some q => some (mkPathQuery ((es q 3).map (fun h => anchorPat h.hid)) ctx)
    | none => none

/-- Modelled from the spec: the wire format of §6,
`MATCH P=({id: "<id0>"})-[*1..4]->...-[*1..4]->({id: "<idk>"}) RETURN P
LIMIT <N>`, written directly from the grammar: `MATCH P=` followed by the
anchor patterns joined by hop clauses, followed by the LIMIT clause. -/
def specPathString (ids : List PyStr) (n : Nat) : PyStr :=
  "MATCH P=".data ++ pyJoin "-[*1..4]->".data (ids.map anchorPat)
    ++ " RETURN P LIMIT ".data ++ natText n

/-- Python `repr` of the parsed concepts value as interpolated into the
default prompt f-string: `None`, or a bracketed, comma-separated list of
single-quoted strings (quote escaping inside concepts is not reproduced;
concepts cannot contain quotes on the inputs considered here). -/
def pyReprConcepts : Option (List PyStr) → PyStr
  | none => "None".data
  | some l =>
    "[".data ++ pyJoin ", ".data (l.map (fun s => "\x27".data ++ s ++ "\x27".data))
      ++ "]".data

/-- The default prompt built in `GraphContext.__call__` when no explicit
free query was parsed. -/
def defaultPrompt (concepts : Option (List PyStr)) : PyStr :=
  "Write a title and text summarizing the context.\n".data
    ++ "Include the following concepts: ".data ++ pyReprConcepts concepts
    ++ " if they\x27re mentioned in the context.".data

/-- The collaborators reachable from a `GraphContext`: presence of the
graph store, `embeddings.search`, `embeddings.graph.search(path,
graph=True)` and `embeddings.similarity`. -/
structure Env where
  hasGraph : Bool
  esearch : SearchFn
  gsearch : PyStr → Graph
  sim : SimFn

/-- Observable outcome of `GraphContext.__call__`: the final question, the
returned context value (`None` or the assembled entry list), and whether
the plot/render side effect (which performs the deduplication and graph
mutation) happened. -/
structure CallResult where
  question : PyStr
  context : Option (List CtxEntry)
  rendered : Bool
deriving DecidableEq

/-- Python truthiness of the returned context value: `None` and `[]` both
denote the empty context of the specification. -/
def contextIsEmpty : Option (List CtxEntry) → Bool
  | none => true
  | some l => l.isEmpty

/-- `GraphContext.__call__`: parse; when a graph is present and the parse
produced a truthy query or concepts, build and execute the path query; on a
non-empty traversal result, plot (which deduplicates and mutates the graph
in place — the context is then assembled from the deduplicated graph),
assemble the context entries, and replace the question by the free query or
the default prompt.  Every fallback path returns the question unchanged with
the parse-time context (`None`).  `none` models an exception escaping. -/
def GraphContext.call (env : Env) (ctx : Nat) (question : PyStr) : Option CallResult :=
  let pr := GraphContext.parse question
  let query := pr.1
  let concepts := pr.2.1
  if env.hasGraph && (pyTruthyStr query || pyTruthyList concepts) then
    match GraphContext.path env.esearch ctx query concepts with
    | none => none
    | some pq =>
      let graph := env.gsearch pq
      if graph.count ≠ 0 then
        match GraphContext.deduplicate env.sim graph (mkRat 9 10) with
        | none => none
        | some (g2, _labels) =>
          let context := g2.nodes.map
            (fun n => CtxEntry.mk (g2.attr n "id".data) (g2.attr n "text".data))
          let finalq :=
            if context.isEmpty then question
            else if pyTruthyStr query then query.getD [] else defaultPrompt concepts
          some ⟨finalq, some context, true⟩
      else some ⟨question, pr.2.2, false⟩
  else some ⟨question, pr.2.2, false⟩

/-- Environment for the resolution-miss scenario: a graph store is present
but every embeddings search returns an empty candidate list. -/
def envMiss : Env := ⟨true, fun _ _ => [], fun _ => ⟨[], [], []⟩, fun _ _ => []⟩

/-- Similarity model of the specification's deduplication test case:
best score 0.95 for `"Linux OS"` against `["Linux"]`, best score 0.2 for
`"Unix"`. -/
def simLinux : SimFn := fun lab _ =>
  if lab == "Linux OS".data then [(0, mkRat 95 100)]
  else if lab == "Unix".data then [(0, mkRat 2 10)]
  else [(0, 0)]

/-- Three scanned nodes with auto ids and topics `Linux`, `Linux OS`,
`Unix`; the `Linux OS` node has two outgoing edges (to the `Unix` node and
to the `Linux` node). -/
def gLinux : Graph :=
  ⟨[1, 2, 3],
   [(1, "id".data, "1".data), (1, "topic".data, "Linux".data),
    (2, "id".data, "2".data), (2, "topic".data, "Linux OS".data),
    (3, "id".data, "3".data), (3, "topic".data, "Unix".data)],
   [(2, 3, [("rel".data, "a".data)]), (2, 1, [("rel".data, "b".data)])]⟩

/-- The same three nodes, but the `Linux OS` node's only incident edge is an
incoming one, from the `Unix` node. -/
def gLinuxIn : Graph :=
  ⟨[1, 2, 3],
   [(1, "id".data, "1".data), (1, "topic".data, "Linux".data),
    (2, "id".data, "2".data), (2, "topic".data, "Linux OS".data),
    (3, "id".data, "3".data), (3, "topic".data, "Unix".data)],
   [(3, 2, [("rel".data, "c".data)])]⟩

/-- A similarity model that always reports a perfect best match. -/
def simOne : SimFn := fun _ _ => [(0, 1)]

/-- Two nodes with identical labels, scanned with the falsy node handle `0`
first: the second node's best score is 1.0 against the registered label of
node `0`. -/
def gZero : Graph :=
  ⟨[0, 1],
   [(0, "id".data, "7".data), (0, "topic".data, "linux".data),
    (1, "id".data, "8".data), (1, "topic".data, "linux".data)],
   []⟩

/-- A search collaborator that returns the query itself as the single hit
(used to exercise the path builder on concrete inputs). -/
def esEcho : SearchFn := fun c _ => [⟨c⟩]

/-- A similarity model matching only the label `"b"`. -/
def simW : SimFn := fun lab _ => if lab == "b".data then [(0, 1)] else [(0, 0)]

/-- Two nodes with user-supplied (non-auto) ids `a` and `b`; node 2 is a
perfect duplicate of node 1 under `simW` and its one outgoing edge points at
the primary. -/
def gW : Graph :=
  ⟨[1, 2],
   [(1, "id".data, "a".data), (2, "id".data, "b".data)],
   [(2, 1, [("r".data, "x".data)])]⟩

/-- The graph obtained from `gW` by one deduplication pass. -/
def gW' : Graph := ⟨[1], [(1, "id".data, "a".data)], []⟩

/-- An environment without a graph store. -/
def envNoGraph : Env := ⟨false, fun _ _ => [], fun _ => ⟨[], [], []⟩, fun _ _ => []⟩

/-- No character of the string is an ASCII uppercase letter
(codepoints 65-90). -/
def noUpper (s : PyStr) : Prop :=
  ∀ c ∈ s, ¬(65 ≤ c.toNat ∧ c.toNat ≤ 90)

/-- `sep` occurs somewhere in `s` as a contiguous substring. -/
def hasSub (sep s : PyStr) : Prop := ∃ a b, s = a ++ sep ++ b


/-- Claim C4: parsing an input with no `->` delimiter that does not start
(case-insensitively, after trimming) with the `gq: ` marker yields no free
query and an empty concept list.  The Python code returns `None` for the
concepts value; `None` denotes the empty concept sequence of the
specification's `ParsedQuery` model (`parsedConceptSeq`). -/
theorem c4_plain_question_parse :
    GraphContext.parse "just a plain question".data = (none, none, none) ∧
    parsedConceptSeq (GraphContext.parse "just a plain question".data) = [] := by
  decide

/-- Claim C8: parsing a concept chain followed by the free-query marker
splits it into both parts in order: the leading concept of the last segment
is appended back to the chain and the trailing text becomes the free
query. -/
theorem c8_parse_chain_and_query :
    GraphContext.parse "linux -> macos -> windows gq: tell me about linux".data =
      (some "tell me about linux".data,
       some ["linux".data, "macos".data, "windows".data], none) := by
  decide

/-- Claim C1 (code bug): the question `"linux -> macos"` parses to the
non-empty concept list `["linux", "macos"]`; with a graph store present and
an embeddings search that returns an empty candidate list for every
concept, `GraphContext.__call__` does not return `(question, empty
context)` — the expression `self.embeddings.search(concept, 1)[0]` raises
`IndexError` (modelled by `none`), contradicting the specified
resolution-miss fallback. -/
theorem c1_resolution_miss_raises :
    (GraphContext.parse "linux -> macos".data).2.1 =
      some ["linux".data, "macos".data] ∧
    envMiss.esearch = (fun _ _ => []) ∧
    envMiss.hasGraph = true ∧
    GraphContext.call envMiss 10 "linux -> macos".data = none := by
  exact ⟨by decide, rfl, rfl, by decide⟩

/-- Claim C2, counterexample: on the specified three-node instance
(`Linux`, `Linux OS`, `Unix`, scores 0.95 and 0.2, threshold 0.9) where the
`Linux OS` node's only incident edge is the incoming edge from the `Unix`
node, deduplication does return exactly 2 surviving nodes, but the result
graph has no edges at all: the incoming incident edge `(3 → 2)` has no
counterpart on the surviving `Linux` node, refuting "every edge that was
incident ... (incoming and outgoing) is present on the surviving node". -/
theorem c2_incident_edge_counterexample :
    edgeLookup gLinuxIn 3 2 = some [("rel".data, "c".data)] ∧
    GraphContext.deduplicate simLinux gLinuxIn (mkRat 9 10) =
      some (⟨[1, 3],
             [(1, "id".data, "1".data), (1, "topic".data, "Linux".data),
              (3, "id".data, "3".data), (3, "topic".data, "Unix".data)],
             []⟩,
            [(1, "Linux".data), (3, "Unix".data)]) := by
  decide

/-- Claim C2, amended: on the three-node instance with labels `Linux`,
`Linux OS`, `Unix` (scores 0.95 / 0.2, threshold 0.9) the result has
exactly 2 surviving nodes (`Linux` and `Unix`), and every outgoing edge of
the `Linux OS` node whose target is not the primary — here `(2 → 3)` — is
present with identical attributes as an edge of the surviving `Linux` node;
the outgoing edge to the primary itself `(2 → 1)` is skipped and incoming
edges are not migrated. -/
theorem c2_dedup_merge_outgoing :
    GraphContext.deduplicate simLinux gLinux (mkRat 9 10) =
      some (⟨[1, 3],
             [(1, "id".data, "1".data), (1, "topic".data, "Linux".data),
              (3, "id".data, "3".data), (3, "topic".data, "Unix".data)],
             [(1, 3, [("rel".data, "a".data)])]⟩,
            [(1, "Linux".data), (3, "Unix".data)]) ∧
    pyAdj gLinux 2 = [(3, [("rel".data, "a".data)]), (1, [("rel".data, "b".data)])] := by
  decide

/-- Claim C3, counterexample: two nodes with equal labels scanned with the
falsy node handle `0` first.  Node 1's best similarity score against the
already-registered labels is `1 ≥ 0.9`, yet node 1 is not marked for
deletion — both nodes survive — because `if not primary:` treats the
matched primary node handle `0` as falsy and re-registers the duplicate
instead. -/
theorem c3_falsy_primary_counterexample :
    simOne "linux".data ["linux".data] = [(0, 1)] ∧
    mkRat 9 10 ≤ (1 : ℚ) ∧
    GraphContext.deduplicate simOne gZero (mkRat 9 10) =
      some (⟨[0, 1], gZero.nattrs, []⟩,
            [(0, "linux".data), (1, "linux".data)]) := by
  decide

/-- Claim C5: for every search collaborator, context limit and non-empty
concept list whose searches all return at least one hit, the path builder
produces exactly the wire-format string of the specification: `MATCH P=`
followed by the anchor patterns of the resolved ids in resolution order,
joined by `-[*1..4]->` hop clauses, followed by ` RETURN P LIMIT N`. -/
theorem c5_path_grammar (es : SearchFn) (N : Nat) (qopt : Option PyStr)
    (cs : List PyStr) (ids : List PyStr)
    (hne : cs ≠ [])
    (hres : resolveIds es cs = some ids) :
    GraphContext.path es N qopt (some cs) = some (specPathString ids N) := by
  have ht : pyTruthyList (some cs) = true := by
    cases cs with
    | nil => exact absurd rfl hne
    | cons a l => rfl
  unfold GraphContext.path
  rw [ht]
  simp only [if_true, Option.getD_some, hres]
  rfl

/-- Witness for C5 at a concrete search function, concept list and limit. -/
theorem c5_path_grammar_witness :
    GraphContext.path esEcho 7 none (some ["aa".data, "bb".data]) =
      some (specPathString ["aa".data, "bb".data] 7) :=
  c5_path_grammar esEcho 7 none ["aa".data, "bb".data] ["aa".data, "bb".data]
    (by decide) (by decide)

/-- The `context` component of a parse result is always `None`. -/
theorem parse_context_none (q : PyStr) : (GraphContext.parse q).2.2 = none := by
  simp only [GraphContext.parse]
  split
  · split
    · split <;> rfl
    · rfl
  · rfl

/-- Claim C7: when the graph store is absent, or parsing yields neither
truthy concepts nor a truthy free query, or the executed traversal result
has count zero, `GraphContext.__call__` returns the input question
unchanged paired with an empty context (`None`), without rendering,
deduplicating, or assembling any context. -/
theorem c7_fallback_empty_context (env : Env) (N : Nat) (q : PyStr)
    (h : env.hasGraph = false ∨
         (pyTruthyStr (GraphContext.parse q).1 = false ∧
          pyTruthyList (GraphContext.parse q).2.1 = false) ∨
         (∃ pq, GraphContext.path env.esearch N (GraphContext.parse q).1
                  (GraphContext.parse q).2.1 = some pq ∧
                (env.gsearch pq).count = 0)) :
    ∃ res, GraphContext.call env N q = some res ∧ res.question = q ∧
      contextIsEmpty res.context = true ∧ res.rendered = false := by
  refine ⟨⟨q, (GraphContext.parse q).2.2, false⟩, ?_, rfl, ?_, rfl⟩
  · simp only [GraphContext.call]
    by_cases hc :
        (env.hasGraph
          && (pyTruthyStr (GraphContext.parse q).1
              || pyTruthyList (GraphContext.parse q).2.1)) = true
    · rw [if_pos hc]
      rcases h with hG | ⟨h1, h2⟩ | ⟨pq, hpq, hcnt⟩
      · rw [hG] at hc
        simp at hc
      · rw [h1, h2] at hc
        simp at hc
      · rw [hpq]
        simp only []
        rw [if_neg (by simp [hcnt])]
    · rw [if_neg hc]
  · rw [parse_context_none]
    rfl

/-- Witness for C7: with no graph store present, the call falls back. -/
theorem c7_fallback_empty_context_witness :
    ∃ res, GraphContext.call envNoGraph 5 "hello".data = some res ∧
      res.question = "hello".data ∧ contextIsEmpty res.context = true ∧
      res.rendered = false :=
  c7_fallback_empty_context envNoGraph 5 "hello".data (Or.inl rfl)

/-- Adding an edge never changes the node attributes. -/
theorem addedge_nattrs (g : Graph) (s t : Nat) (a : EAttr) :
    (g.addedge s t a).nattrs = g.nattrs := by
  unfold Graph.addedge
  split <;> rfl

/-- Adding an edge never changes the node list. -/
theorem addedge_nodes (g : Graph) (s t : Nat) (a : EAttr) :
    (g.addedge s t a).nodes = g.nodes := by
  unfold Graph.addedge
  split <;> rfl

/-- The edge-migration fold never changes the node attributes. -/
theorem migrate_foldl_nattrs (p : Nat) :
    ∀ (L : List (Nat × EAttr)) (g : Graph),
      (L.foldl (fun gc ta => if p ≠ ta.1 then gc.addedge p ta.1 ta.2 else gc) g).nattrs
        = g.nattrs := by
  intro L
  induction L with
  | nil => intro g; rfl
  | cons ta rest ih =>
    intro g
    simp only [List.foldl_cons]
    rw [ih]
    by_cases h : p ≠ ta.1 <;> simp [h, addedge_nattrs]

/-- The edge-migration fold never changes the node list. -/
theorem migrate_foldl_nodes (p : Nat) :
    ∀ (L : List (Nat × EAttr)) (g : Graph),
      (L.foldl (fun gc ta => if p ≠ ta.1 then gc.addedge p ta.1 ta.2 else gc) g).nodes
        = g.nodes := by
  intro L
  induction L with
  | nil => intro g; rfl
  | cons ta rest ih =>
    intro g
    simp only [List.foldl_cons]
    rw [ih]
    by_cases h : p ≠ ta.1 <;> simp [h, addedge_nodes]

/-- `migrateEdges` only changes edges. -/
theorem migrateEdges_nattrs (g : Graph) (n p : Nat) :
    (migrateEdges g n p).nattrs = g.nattrs :=
  migrate_foldl_nattrs p (pyAdj g n) g

/-- `migrateEdges` keeps the node list. -/
theorem migrateEdges_nodes (g : Graph) (n p : Nat) :
    (migrateEdges g n p).nodes = g.nodes :=
  migrate_foldl_nodes p (pyAdj g n) g

/-- Attribute lookup only depends on the attribute table. -/
theorem attr_congr {g h : Graph} (hx : g.nattrs = h.nattrs) (n : Nat) (a : PyStr) :
    g.attr n a = h.attr n a := by
  unfold Graph.attr
  rw [hx]

/-- The derived node label only depends on the attribute table. -/
theorem nodeLabel_congr {g h : Graph} (hx : g.nattrs = h.nattrs) (n : Nat) :
    nodeLabel g n = nodeLabel h n := by
  unfold nodeLabel
  rw [attr_congr hx n "id".data, attr_congr hx n "topic".data]

/-- Case analysis for a successful deduplication step: either the node is
registered as a primary (its computed primary is Python-falsy: `None` or the
node handle `0`), or it is merged into a truthy primary `p` (its outgoing
edges are migrated and it joins the delete list). -/
theorem dedupStep_elim {sim : SimFn} {θ : ℚ} {g : Graph} {lb : LabelsT}
    {T : TopicsT} {D : List Nat} {n : Nat} {st : DState}
    (h : dedupStep sim θ g lb T D n = some st) :
    ∃ labN, nodeLabel g n = some labN ∧
      ((∃ pr, stepPrimary sim θ T labN = some pr ∧ (pr = none ∨ pr = some 0) ∧
          st = ⟨g, assocInsert lb n labN, assocInsert T labN n, D⟩) ∨
       (∃ p, stepPrimary sim θ T labN = some (some p) ∧ p ≠ 0 ∧
          st = ⟨migrateEdges g n p, lb, T, D ++ [n]⟩)) := by
  unfold dedupStep at h
  split at h
  next heq => exact absurd h (by simp)
  next labN heq =>
    split at h
    next hp => exact absurd h (by simp)
    next hp =>
      exact ⟨labN, heq, Or.inl ⟨none, hp, Or.inl rfl, (Option.some_injective _ h).symm⟩⟩
    next p hp =>
      by_cases hz : p = 0
      · subst hz
        rw [if_pos rfl] at h
        exact ⟨labN, heq, Or.inl ⟨some 0, hp, Or.inr rfl, (Option.some_injective _ h).symm⟩⟩
      · rw [if_neg hz] at h
        exact ⟨labN, heq, Or.inr ⟨p, hp, hz, (Option.some_injective _ h).symm⟩⟩

/-- Introduction form of the register branch of a deduplication step. -/
theorem dedupStep_reg {sim : SimFn} {θ : ℚ} {g : Graph} {lb : LabelsT}
    {T : TopicsT} {D : List Nat} {n : Nat} {labN : PyStr} {pr : Option Nat}
    (hl : nodeLabel g n = some labN)
    (hp : stepPrimary sim θ T labN = some pr)
    (hf : pr = none ∨ pr = some 0) :
    dedupStep sim θ g lb T D n =
      some ⟨g, assocInsert lb n labN, assocInsert T labN n, D⟩ := by
  unfold dedupStep
  rw [hl]
  dsimp only
  rw [hp]
  rcases hf with rfl | rfl
  · rfl
  · simp

/-- Introduction form of the merge branch of a deduplication step. -/
theorem dedupStep_merge {sim : SimFn} {θ : ℚ} {g : Graph} {lb : LabelsT}
    {T : TopicsT} {D : List Nat} {n : Nat} {labN : PyStr} {p : Nat}
    (hl : nodeLabel g n = some labN)
    (hp : stepPrimary sim θ T labN = some (some p))
    (hz : p ≠ 0) :
    dedupStep sim θ g lb T D n = some ⟨migrateEdges g n p, lb, T, D ++ [n]⟩ := by
  unfold dedupStep
  rw [hl]
  dsimp only
  rw [hp]
  dsimp only
  rw [if_neg hz]

/-- The deduplication scan splits over list append. -/
theorem dedupFold_append (sim : SimFn) (θ : ℚ) (L1 L2 : List Nat) (st : DState) :
    dedupFold sim θ (L1 ++ L2) st =
      match dedupFold sim θ L1 st with
      | none => none
      | some st' => dedupFold sim θ L2 st' := by
  induction L1 generalizing st with
  | nil => rfl
  | cons n rest ih =>
    simp only [List.cons_append, dedupFold]
    cases dedupStep sim θ st.g st.labels st.topics st.dels n with
    | none => rfl
    | some st' => exact ih st'

/-- Invariants of the deduplication scan: node attributes and the node list
are preserved, the delete list only grows, and it only gains scanned
nodes. -/
theorem dedupFold_inv {sim : SimFn} {θ : ℚ} :
    ∀ {L : List Nat} {st0 st : DState},
      dedupFold sim θ L st0 = some st →
      st.g.nattrs = st0.g.nattrs ∧ st.g.nodes = st0.g.nodes ∧
      (∀ m ∈ st0.dels, m ∈ st.dels) ∧
      (∀ m ∈ st.dels, m ∈ st0.dels ∨ m ∈ L) := by
  intro L
  induction L with
  | nil =>
    intro st0 st h
    have : st0 = st := Option.some_injective _ h
    subst this
    exact ⟨rfl, rfl, fun m hm => hm, fun m hm => Or.inl hm⟩
  | cons n rest ih =>
    intro st0 st h
    simp only [dedupFold] at h
    cases hs : dedupStep sim θ st0.g st0.labels st0.topics st0.dels n with
    | none => rw [hs] at h; exact absurd h (by simp)
    | some st1 =>
      rw [hs] at h
      obtain ⟨ha, hn, hd1, hd2⟩ := ih h
      obtain ⟨labN, _, hcase⟩ := dedupStep_elim hs
      rcases hcase with ⟨pr, _, _, rfl⟩ | ⟨p, _, _, rfl⟩
      · exact ⟨ha, hn, hd1, fun m hm => (hd2 m hm).imp id (List.mem_cons_of_mem n)⟩
      · refine ⟨ha.trans (migrateEdges_nattrs _ _ _),
          hn.trans (migrateEdges_nodes _ _ _), ?_, ?_⟩
        · intro m hm
          exact hd1 m (by simp [hm])
        · intro m hm
          rcases hd2 m hm with hm' | hm'
          · rcases List.mem_append.mp hm' with hm'' | hm''
            · exact Or.inl hm''
            · simp only [List.mem_singleton] at hm''
              exact Or.inr (by simp [hm''])
          · exact Or.inr (List.mem_cons_of_mem n hm')

/-- `find?` commutes with `filter` when the searched predicate implies the
filter predicate. -/
theorem find?_filter_of_imp {α : Type} (p q : α → Bool) (l : List α)
    (hpq : ∀ e, p e = true → q e = true) :
    (l.filter q).find? p = l.find? p := by
  induction l with
  | nil => rfl
  | cons e rest ih =>
    cases hq : q e with
    | true =>
      simp only [List.filter, hq, List.find?]
      cases hp : p e
      · exact ih
      · rfl
    | false =>
      have hp : p e = false := by
        cases hpe : p e
        · rfl
        · exact absurd (hpq e hpe) (by simp [hq])
      simp only [List.filter, hq, List.find?, hp]
      exact ih

/-- Deleting other nodes does not change a surviving node's attributes. -/
theorem attr_delete {g : Graph} {ds : List Nat} {n : Nat} (hn : ¬ n ∈ ds)
    (a : PyStr) : (g.delete ds).attr n a = g.attr n a := by
  unfold Graph.delete Graph.attr
  simp only []
  rw [find?_filter_of_imp]
  intro e hp
  have he : e.1 = n := eq_of_beq (Bool.and_elim_left hp)
  simp only [he, Bool.not_eq_true']
  cases hel : ds.elem n
  · rfl
  · exact absurd (List.mem_of_elem_eq_true hel) hn

/-- Deleting nothing is the identity. -/
theorem delete_nil (g : Graph) : g.delete [] = g := by
  unfold Graph.delete
  cases g with
  | mk ns na ge =>
    simp only [Graph.mk.injEq]
    refine ⟨?_, ?_, ?_⟩ <;>
      exact List.filter_eq_self.mpr (fun a _ => rfl)

/-- Inserting a fresh key into a Python dict appends it at the end. -/
theorem assocInsert_of_not_mem {α β : Type} [BEq α] [LawfulBEq α]
    (l : List (α × β)) (k : α) (v : β) (hk : ¬ k ∈ l.map Prod.fst) :
    assocInsert l k v = l ++ [(k, v)] := by
  induction l with
  | nil => rfl
  | cons e rest ih =>
    obtain ⟨k0, v0⟩ := e
    simp only [List.map_cons, List.mem_cons] at hk
    push_neg at hk
    have h1 : (k0 == k) = false := by
      cases hbe : k0 == k
      · rfl
      · exact absurd (eq_of_beq hbe).symm hk.1
    simp only [assocInsert, h1, Bool.false_eq_true, if_false, List.cons_append,
      List.cons.injEq, true_and]
    exact ih hk.2

/-- Labels accumulated by the deduplication scan: every node that registers
appends exactly one label entry; the keys, in order, are the scanned nodes
that are not in the final delete list, and every entry holds the label
derived from the (unchanged) node attributes. -/
theorem c10_aux {sim : SimFn} {θ : ℚ} :
    ∀ (L : List Nat) (g1 g0 : Graph) (lb : LabelsT) (T : TopicsT)
      (D : List Nat) (st : DState),
      dedupFold sim θ L ⟨g1, lb, T, D⟩ = some st →
      g1.nattrs = g0.nattrs →
      L.Nodup →
      (∀ n ∈ L, ¬ n ∈ D) →
      (∀ n ∈ L, ¬ n ∈ lb.map Prod.fst) →
      ∃ Δ, st.labels = lb ++ Δ ∧
        Δ.map Prod.fst = L.filter (fun n => !st.dels.elem n) ∧
        ∀ q ∈ Δ, nodeLabel g0 q.1 = some q.2 := by
  intro L
  induction L with
  | nil =>
    intro g1 g0 lb T D st h hattr _ _ _
    have hst : (⟨g1, lb, T, D⟩ : DState) = st := Option.some_injective _ h
    subst hst
    exact ⟨[], by simp, by simp, by intro q hq; cases hq⟩
  | cons n rest ih =>
    intro g1 g0 lb T D st h hattr hnd hD hlb
    simp only [dedupFold] at h
    cases hs : dedupStep sim θ g1 lb T D n with
    | none => rw [hs] at h; exact absurd h (by simp)
    | some st1 =>
      rw [hs] at h
      obtain ⟨labN, hlabN, hcase⟩ := dedupStep_elim hs
      rcases hcase with ⟨pr, hpr, hf, rfl⟩ | ⟨p, hpr, hz, rfl⟩
      · have hnin : ¬ n ∈ st.dels := by
          intro hmem
          rcases (dedupFold_inv h).2.2.2 n hmem with h' | h'
          · exact hD n (List.mem_cons_self n rest) h'
          · exact (List.nodup_cons.mp hnd).1 h'
        have hins : assocInsert lb n labN = lb ++ [(n, labN)] :=
          assocInsert_of_not_mem lb n labN (hlb n (List.mem_cons_self n rest))
        obtain ⟨Δ, h1, h2, h3⟩ := ih g1 g0 (assocInsert lb n labN) _ D st h hattr
          (List.nodup_cons.mp hnd).2
          (fun m hm => hD m (List.mem_cons_of_mem n hm))
          (fun m hm => by
            rw [hins]
            simp only [List.map_append, List.mem_append, List.map_cons,
              List.map_nil, List.mem_singleton]
            rintro (hm' | hm')
            · exact hlb m (List.mem_cons_of_mem n hm) hm'
            · exact (List.nodup_cons.mp hnd).1 (hm' ▸ hm))
        refine ⟨(n, labN) :: Δ, ?_, ?_, ?_⟩
        · rw [h1, hins, List.append_assoc]
          rfl
        · simp only [List.map_cons, h2]
          rw [List.filter_cons]
          have he : (!st.dels.elem n) = true := by
            cases he' : st.dels.elem n
            · rfl
            · exact absurd (List.mem_of_elem_eq_true he') hnin
          rw [he]
          simp
        · intro q hq
          rcases List.mem_cons.mp hq with rfl | hq'
          · rw [← nodeLabel_congr hattr n]
            exact hlabN
          · exact h3 q hq'
      · have hnfin : n ∈ st.dels := (dedupFold_inv h).2.2.1 n (by simp)
        obtain ⟨Δ, h1, h2, h3⟩ := ih (migrateEdges g1 n p) g0 lb T (D ++ [n]) st h
          ((migrateEdges_nattrs g1 n p).trans hattr)
          (List.nodup_cons.mp hnd).2
          (fun m hm => by
            simp only [List.mem_append, List.mem_singleton]
            rintro (hm' | rfl)
            · exact hD m (List.mem_cons_of_mem n hm) hm'
            · exact (List.nodup_cons.mp hnd).1 hm)
          (fun m hm => hlb m (List.mem_cons_of_mem n hm))
        refine ⟨Δ, h1, ?_, h3⟩
        rw [h2, List.filter_cons]
        have he : (!st.dels.elem n) = false := by
          rw [List.elem_eq_true_of_mem hnfin]
          rfl
        rw [he]
        simp

/-- Claim C10: for every well-formed input graph (unique node handles) and
threshold, a successful deduplication returns a label map whose keys are
exactly the surviving nodes, in scan order, each mapped to the label derived
at registration time (the `topic` attribute when the `id` is an auto id and
a topic is set, otherwise the `id`). -/
theorem c10_label_map_keys (sim : SimFn) (g : Graph) (θ : ℚ) (g' : Graph)
    (lab : LabelsT)
    (hnd : g.nodes.Nodup)
    (hrun : GraphContext.deduplicate sim g θ = some (g', lab)) :
    lab.map Prod.fst = g'.nodes ∧
    ∀ q ∈ lab, nodeLabel g q.1 = some q.2 := by
  unfold GraphContext.deduplicate at hrun
  cases hf : dedupFold sim θ g.nodes ⟨g, [], [], []⟩ with
  | none => rw [hf] at hrun; exact absurd hrun (by simp)
  | some st =>
    rw [hf] at hrun
    have heq := Option.some_injective _ hrun
    have hg' : st.g.delete st.dels = g' := congrArg Prod.fst heq
    have hlab : st.labels = lab := congrArg Prod.snd heq
    obtain ⟨Δ, h1, h2, h3⟩ := c10_aux g.nodes g g [] [] [] st hf rfl hnd
      (by simp) (by simp)
    constructor
    · rw [← hlab, h1]
      simp only [List.nil_append]
      rw [h2, ← hg']
      unfold Graph.delete
      simp only []
      rw [(dedupFold_inv hf).2.1]
    · intro q hq
      rw [← hlab, h1] at hq
      simp only [List.nil_append] at hq
      exact h3 q hq

/-- Witness for C10 at the `Linux`/`Linux OS`/`Unix` instance. -/
theorem c10_label_map_keys_witness :
    ([(1, "Linux".data), (3, "Unix".data)] : LabelsT).map Prod.fst =
      (⟨[1, 3],
        [(1, "id".data, "1".data), (1, "topic".data, "Linux".data),
         (3, "id".data, "3".data), (3, "topic".data, "Unix".data)],
        [(1, 3, [("rel".data, "a".data)])]⟩ : Graph).nodes ∧
    ∀ q ∈ ([(1, "Linux".data), (3, "Unix".data)] : LabelsT),
      nodeLabel gLinux q.1 = some q.2 :=
  c10_label_map_keys simLinux gLinux (mkRat 9 10)
    ⟨[1, 3],
     [(1, "id".data, "1".data), (1, "topic".data, "Linux".data),
      (3, "id".data, "3".data), (3, "topic".data, "Unix".data)],
     [(1, 3, [("rel".data, "a".data)])]⟩
    [(1, "Linux".data), (3, "Unix".data)]
    (by decide) (by decide)

/-- The derived node label only depends on the node's own attributes. -/
theorem nodeLabel_congr_attr {g h : Graph} {n : Nat}
    (hx : ∀ a, g.attr n a = h.attr n a) : nodeLabel g n = nodeLabel h n := by
  unfold nodeLabel
  rw [hx "id".data, hx "topic".data]

/-- Re-scanning the survivors of a deduplication pass from the same topics
registry reproduces the pass's register decisions: no node merges, the graph
and delete list stay unchanged, and the topics registry ends equal to the
first pass's.  The attribute hypothesis only concerns surviving nodes. -/
theorem c6_aux {sim : SimFn} {θ : ℚ} :
    ∀ (L : List Nat) (g1 : Graph) (lb1 : LabelsT) (T : TopicsT) (D : List Nat)
      (st1 : DState) (g2 : Graph) (lb2 : LabelsT) (D2 : List Nat),
      dedupFold sim θ L ⟨g1, lb1, T, D⟩ = some st1 →
      L.Nodup →
      (∀ n ∈ L, ¬ n ∈ D) →
      (∀ n ∈ L, ¬ n ∈ st1.dels → ∀ a, g2.attr n a = g1.attr n a) →
      ∃ lb', dedupFold sim θ (L.filter (fun n => !st1.dels.elem n)) ⟨g2, lb2, T, D2⟩ =
        some ⟨g2, lb', st1.topics, D2⟩ := by
  intro L
  induction L with
  | nil =>
    intro g1 lb1 T D st1 g2 lb2 D2 h _ _ _
    have hst : (⟨g1, lb1, T, D⟩ : DState) = st1 := Option.some_injective _ h
    subst hst
    exact ⟨lb2, rfl⟩
  | cons n rest ih =>
    intro g1 lb1 T D st1 g2 lb2 D2 h hnd hD hattr
    simp only [dedupFold] at h
    cases hs : dedupStep sim θ g1 lb1 T D n with
    | none => rw [hs] at h; exact absurd h (by simp)
    | some stA =>
      rw [hs] at h
      obtain ⟨labN, hlabN, hcase⟩ := dedupStep_elim hs
      rcases hcase with ⟨pr, hpr, hf, rfl⟩ | ⟨p, hpr, hz, rfl⟩
      · have hnin : ¬ n ∈ st1.dels := by
          intro hmem
          rcases (dedupFold_inv h).2.2.2 n hmem with h' | h'
          · exact hD n (List.mem_cons_self n rest) h'
          · exact (List.nodup_cons.mp hnd).1 h'
        have hfe : (!st1.dels.elem n) = true := by
          cases he' : st1.dels.elem n
          · rfl
          · exact absurd (List.mem_of_elem_eq_true he') hnin
        have hlab2 : nodeLabel g2 n = some labN := by
          rw [nodeLabel_congr_attr (hattr n (List.mem_cons_self n rest) hnin)]
          exact hlabN
        have hstep2 : dedupStep sim θ g2 lb2 T D2 n =
            some ⟨g2, assocInsert lb2 n labN, assocInsert T labN n, D2⟩ :=
          dedupStep_reg hlab2 hpr hf
        obtain ⟨lb', hrec⟩ := ih g1 (assocInsert lb1 n labN) (assocInsert T labN n)
          D st1 g2 (assocInsert lb2 n labN) D2 h
          (List.nodup_cons.mp hnd).2
          (fun m hm => hD m (List.mem_cons_of_mem n hm))
          (fun m hm hmn a => hattr m (List.mem_cons_of_mem n hm) hmn a)
        refine ⟨lb', ?_⟩
        rw [List.filter_cons, hfe, if_pos rfl]
        simp only [dedupFold, hstep2]
        exact hrec
      · have hnfin : n ∈ st1.dels := (dedupFold_inv h).2.2.1 n (by simp)
        have hfe : (!st1.dels.elem n) = false := by
          rw [List.elem_eq_true_of_mem hnfin]
          rfl
        obtain ⟨lb', hrec⟩ := ih (migrateEdges g1 n p) lb1 T (D ++ [n]) st1 g2 lb2 D2 h
          (List.nodup_cons.mp hnd).2
          (fun m hm => by
            simp only [List.mem_append, List.mem_singleton]
            rintro (hm' | rfl)
            · exact hD m (List.mem_cons_of_mem n hm) hm'
            · exact (List.nodup_cons.mp hnd).1 hm)
          (fun m hm hmn a => by
            rw [hattr m (List.mem_cons_of_mem n hm) hmn a]
            exact (attr_congr (migrateEdges_nattrs g1 n p) m a).symm)
        refine ⟨lb', ?_⟩
        rw [List.filter_cons, hfe, if_neg Bool.false_ne_true]
        exact hrec

/-- Claim C6: deduplication reaches a fixed point in one pass.  For every
well-formed input graph (unique node handles), running `deduplicate` again
on the output graph with the same threshold, the same deterministic
similarity collaborator and the same scan order marks no node as a
duplicate: the second pass succeeds and returns the graph unchanged. -/
theorem c6_dedup_idempotent (sim : SimFn) (g : Graph) (θ : ℚ) (g' : Graph)
    (lab : LabelsT)
    (hnd : g.nodes.Nodup)
    (h1 : GraphContext.deduplicate sim g θ = some (g', lab)) :
    ∃ lab2, GraphContext.deduplicate sim g' θ = some (g', lab2) := by
  unfold GraphContext.deduplicate at h1
  cases hf : dedupFold sim θ g.nodes ⟨g, [], [], []⟩ with
  | none => rw [hf] at h1; exact absurd h1 (by simp)
  | some st =>
    rw [hf] at h1
    have heq := Option.some_injective _ h1
    have hg' : st.g.delete st.dels = g' := congrArg Prod.fst heq
    have hnodes : g'.nodes = g.nodes.filter (fun n => !st.dels.elem n) := by
      rw [← hg']
      unfold Graph.delete
      simp only []
      rw [(dedupFold_inv hf).2.1]
    have hattr2 : ∀ n ∈ g.nodes, ¬ n ∈ st.dels → ∀ a, g'.attr n a = g.attr n a := by
      intro n hn hnin a
      rw [← hg', attr_delete hnin a]
      exact attr_congr (dedupFold_inv hf).1 n a
    obtain ⟨lb', hrec⟩ := c6_aux g.nodes g [] [] [] st g' [] [] hf hnd
      (by simp) hattr2
    refine ⟨lb', ?_⟩
    unfold GraphContext.deduplicate
    rw [hnodes, hrec]
    simp only []
    rw [delete_nil]

/-- Witness for C6: a two-node graph whose second node merges into the
first; the second pass leaves the reduced graph unchanged. -/
theorem c6_dedup_idempotent_witness :
    ∃ lab2, GraphContext.deduplicate simW gW' (mkRat 9 10) = some (gW', lab2) :=
  c6_dedup_idempotent simW gW (mkRat 9 10) gW' [(1, "a".data)]
    (by decide) (by decide)

/-- The key list produced by a Python dict insertion. -/
theorem assocInsert_keys {α β : Type} [BEq α] [LawfulBEq α]
    (l : List (α × β)) (k : α) (v : β) :
    (assocInsert l k v).map Prod.fst =
      if k ∈ l.map Prod.fst then l.map Prod.fst else l.map Prod.fst ++ [k] := by
  induction l with
  | nil => simp [assocInsert]
  | cons e rest ih =>
    obtain ⟨k0, v0⟩ := e
    by_cases hk : k0 = k
    · subst hk
      simp [assocInsert]
    · have hbe : (k0 == k) = false := by
        cases hbe' : k0 == k
        · rfl
        · exact absurd (eq_of_beq hbe') hk
      simp only [assocInsert, hbe, Bool.false_eq_true, if_false, List.map_cons, ih]
      by_cases hmem : k ∈ rest.map Prod.fst
      · simp [hmem, Ne.symm hk]
      · simp [hmem, Ne.symm hk]

/-- Dict insertion preserves key uniqueness. -/
theorem assocInsert_keys_nodup {α β : Type} [BEq α] [LawfulBEq α]
    (l : List (α × β)) (k : α) (v : β) (h : (l.map Prod.fst).Nodup) :
    ((assocInsert l k v).map Prod.fst).Nodup := by
  rw [assocInsert_keys]
  by_cases hmem : k ∈ l.map Prod.fst
  · rw [if_pos hmem]
    exact h
  · rw [if_neg hmem]
    simp [List.nodup_append, h, hmem]

/-- The adjacency dict of a node has unique target keys. -/
theorem pyAdj_keys_nodup (g : Graph) (n : Nat) :
    ((pyAdj g n).map Prod.fst).Nodup := by
  unfold pyAdj
  suffices h : ∀ (es : List (Nat × Nat × EAttr)) (acc : List (Nat × EAttr)),
      (acc.map Prod.fst).Nodup →
      ((es.foldl (fun acc e =>
          if e.1 == n then assocInsert acc e.2.1 e.2.2 else acc) acc).map
        Prod.fst).Nodup by
    exact h g.gedges [] (by simp)
  intro es
  induction es with
  | nil => intro acc h; exact h
  | cons e rest ih =>
    intro acc h
    simp only [List.foldl_cons]
    by_cases he : (e.1 == n) = true
    · rw [if_pos he]
      exact ih _ (assocInsert_keys_nodup _ _ _ h)
    · rw [if_neg he]
      exact ih acc h

/-- Replacing the attributes of the `(s, t)` edge leaves lookups for a
different target unchanged. -/
theorem replaceEdge_find_ne (s t t' : Nat) (a : EAttr) (hne : t' ≠ t) :
    ∀ (es : List (Nat × Nat × EAttr)),
      (replaceEdge es s t a).find? (fun e => e.1 == s && e.2.1 == t') =
        es.find? (fun e => e.1 == s && e.2.1 == t') := by
  intro es
  induction es with
  | nil => rfl
  | cons e rest ih =>
    obtain ⟨s0, t0, a0⟩ := e
    by_cases hm : (s0 == s && t0 == t) = true
    · simp only [replaceEdge, hm, if_true]
      have hpf : (s0 == s && t0 == t') = false := by
        cases hq : (s0 == s && t0 == t')
        · rfl
        · have h1 : t0 = t' := eq_of_beq (Bool.and_elim_right hq)
          have h2 : t0 = t := eq_of_beq (Bool.and_elim_right hm)
          exact absurd (h1.symm.trans h2) hne
      simp only [List.find?, hpf]
    · simp only [replaceEdge, hm, Bool.false_eq_true, if_false]
      cases hq : (s0 == s && t0 == t')
      · simp only [List.find?, hq]
        exact ih
      · simp only [List.find?, hq]

/-- Looking up a different target after `addedge` is unchanged. -/
theorem edgeLookup_addedge_ne (g : Graph) (s t t' : Nat) (a : EAttr)
    (hne : t' ≠ t) :
    edgeLookup (g.addedge s t a) s t' = edgeLookup g s t' := by
  unfold Graph.addedge edgeLookup
  by_cases h : (g.gedges.any fun e => e.1 == s && e.2.1 == t) = true
  · rw [if_pos h]
    simp only [replaceEdge_find_ne s t t' a hne]
  · rw [if_neg h]
    simp only [List.find?_append]
    have htt : (t == t') = false := by
      cases hb : t == t'
      · rfl
      · exact absurd (eq_of_beq hb).symm hne
    cases hfind : g.gedges.find? (fun e => e.1 == s && e.2.1 == t') <;>
      simp [List.find?, htt]

/-- `addedge` makes the edge present; when the edge was absent the stored
attributes are exactly the added ones. -/
theorem edgeLookup_addedge_self (g : Graph) (s t : Nat) (a : EAttr) :
    ∃ a', edgeLookup (g.addedge s t a) s t = some a' ∧
      (edgeLookup g s t = none → a' = a) := by
  unfold Graph.addedge edgeLookup
  by_cases h : (g.gedges.any fun e => e.1 == s && e.2.1 == t) = true
  · rw [if_pos h]
    obtain ⟨e, hmem, hpe⟩ := List.any_eq_true.mp h
    have hsome : g.gedges.find? (fun e => e.1 == s && e.2.1 == t) ≠ none := by
      intro hnone
      have := List.find?_eq_none.mp hnone e hmem
      exact this hpe
    cases hfind : g.gedges.find? (fun e => e.1 == s && e.2.1 == t) with
    | none => exact absurd hfind hsome
    | some e0 =>
      have hrep : ∀ (es : List (Nat × Nat × EAttr)),
          es.find? (fun e => e.1 == s && e.2.1 == t) = some e0 →
          (replaceEdge es s t a).find? (fun e => e.1 == s && e.2.1 == t) =
            some (e0.1, e0.2.1, attrMerge e0.2.2 a) := by
        intro es
        induction es with
        | nil => intro hx; cases hx
        | cons e1 rest ih =>
          intro hx
          obtain ⟨s1, t1, a1⟩ := e1
          cases hq : (s1 == s && t1 == t) with
          | true =>
            simp only [List.find?, hq] at hx
            have he0 : (s1, t1, a1) = e0 := Option.some_injective _ hx
            simp only [replaceEdge, hq, if_true, List.find?]
            rw [← he0]
          | false =>
            simp only [List.find?, hq] at hx
            simp only [replaceEdge, hq, Bool.false_eq_true, if_false,
              List.find?]
            exact ih hx
      refine ⟨attrMerge e0.2.2 a, ?_, ?_⟩
      · rw [hrep g.gedges hfind]
        rfl
      · intro hnone
        simp at hnone
  · rw [if_neg h]
    refine ⟨a, ?_, fun _ => rfl⟩
    simp only [List.find?_append]
    have hnone : g.gedges.find? (fun e => e.1 == s && e.2.1 == t) = none := by
      rw [List.find?_eq_none]
      intro e hmem hpe
      exact h (List.any_eq_true.mpr ⟨e, hmem, hpe⟩)
    rw [hnone]
    simp [List.find?]

/-- The migration fold does not touch lookups whose target is not a key of
the folded adjacency list. -/
theorem migrate_fold_preserve (p : Nat) :
    ∀ (L : List (Nat × EAttr)) (g : Graph) (t : Nat),
      (∀ x ∈ L, x.1 ≠ t) →
      edgeLookup
        (L.foldl (fun gc x => if p ≠ x.1 then gc.addedge p x.1 x.2 else gc) g)
        p t = edgeLookup g p t := by
  intro L
  induction L with
  | nil => intro g t _; rfl
  | cons x rest ih =>
    intro g t hx
    simp only [List.foldl_cons]
    rw [ih _ t (fun y hy => hx y (List.mem_cons_of_mem x hy))]
    by_cases hp : p ≠ x.1
    · rw [if_pos hp]
      exact edgeLookup_addedge_ne g p x.1 t x.2
        (Ne.symm (hx x (List.mem_cons_self x rest)))
    · rw [if_neg hp]

/-- After migrating a duplicate's outgoing edges, every adjacency entry with
a target different from the primary is present as an edge of the primary;
when that edge did not exist before, its attributes are exactly the
migrated ones. -/
theorem migrate_fold_lookup (p : Nat) :
    ∀ (L : List (Nat × EAttr)) (g : Graph),
      (L.map Prod.fst).Nodup →
      ∀ ta ∈ L, ta.1 ≠ p →
        ∃ a', edgeLookup
            (L.foldl (fun gc x => if p ≠ x.1 then gc.addedge p x.1 x.2 else gc) g)
            p ta.1 = some a' ∧
          (edgeLookup g p ta.1 = none → a' = ta.2) := by
  intro L
  induction L with
  | nil => intro g _ ta h; cases h
  | cons x rest ih =>
    intro g hnd ta hta hne
    simp only [List.foldl_cons]
    rcases List.mem_cons.mp hta with rfl | hmem
    · have hpx : p ≠ ta.1 := Ne.symm hne
      rw [if_pos hpx]
      obtain ⟨a', ha1, ha2⟩ := edgeLookup_addedge_self g p ta.1 ta.2
      have hrest : ∀ y ∈ rest, y.1 ≠ ta.1 := by
        intro y hy heq
        have hx1 : ta.1 ∉ rest.map Prod.fst := by
          simp only [List.map_cons, List.nodup_cons] at hnd
          exact hnd.1
        exact hx1 (heq ▸ List.mem_map_of_mem Prod.fst hy)
      refine ⟨a', ?_, ha2⟩
      rw [migrate_fold_preserve p rest _ ta.1 hrest]
      exact ha1
    · have hkey : ta.1 ≠ x.1 := by
        intro heq
        have h1 : x.1 ∉ rest.map Prod.fst := by
          simp only [List.map_cons, List.nodup_cons] at hnd
          exact hnd.1
        exact h1 (heq ▸ List.mem_map_of_mem Prod.fst hmem)
      have hnd' : (rest.map Prod.fst).Nodup := by
        simp only [List.map_cons, List.nodup_cons] at hnd
        exact hnd.2
      obtain ⟨a', ha1, ha2⟩ :=
        ih (if p ≠ x.1 then g.addedge p x.1 x.2 else g) hnd' ta hmem hne
      refine ⟨a', ha1, fun h0 => ha2 ?_⟩
      have hstep : edgeLookup (if p ≠ x.1 then g.addedge p x.1 x.2 else g)
          p ta.1 = edgeLookup g p ta.1 := by
        by_cases hp : p ≠ x.1
        · rw [if_pos hp]
          exact edgeLookup_addedge_ne g p x.1 ta.1 x.2 hkey
        · rw [if_neg hp]
      rw [hstep]
      exact h0

/-- Claim C3, amended: during deduplication, a scanned node whose label's
best similarity score against the already-registered labels reaches the
threshold is marked for deletion and does not survive, and each of its
outgoing edges with a target other than the matched primary is migrated to
the primary — provided the matched primary node handle is truthy
(non-zero); a falsy handle `0` instead re-registers the node (see the
counterexample).  The intermediate state `st1` is the scan state just
before the node, `s` is the best score, `key`/`p` the best label and its
registered primary. -/
theorem c3_duplicate_step (sim : SimFn) (θ : ℚ) (g : Graph)
    (pre post : List Nat) (n : Nat) (st1 : DState) (labN : PyStr)
    (pid : Nat) (s : ℚ) (key : PyStr) (p : Nat) (gfin : Graph)
    (labfin : LabelsT)
    (hsplit : g.nodes = pre ++ n :: post)
    (hfold : dedupFold sim θ pre ⟨g, [], [], []⟩ = some st1)
    (hlab : nodeLabel st1.g n = some labN)
    (hT : st1.topics ≠ [])
    (hbest : (sim labN (st1.topics.map Prod.fst)).head? = some (pid, s))
    (hs : s ≥ θ)
    (hkey : (st1.topics.map Prod.fst).get? pid = some key)
    (hp : List.lookup key st1.topics = some p)
    (hz : p ≠ 0)
    (hrun : GraphContext.deduplicate sim g θ = some (gfin, labfin)) :
    ¬ n ∈ gfin.nodes ∧
    ∀ ta ∈ pyAdj st1.g n, ta.1 ≠ p →
      ∃ a', edgeLookup (migrateEdges st1.g n p) p ta.1 = some a' ∧
        (edgeLookup st1.g p ta.1 = none → a' = ta.2) := by
  have hsp : stepPrimary sim θ st1.topics labN = some (some p) := by
    have hne : (st1.topics.map Prod.fst).isEmpty = false := by
      cases ht : st1.topics with
      | nil => exact absurd ht hT
      | cons x l => rfl
    simp only [stepPrimary]
    rw [hne, if_neg Bool.false_ne_true, hbest]
    dsimp only
    rw [if_pos hs, hkey]
    dsimp only
    rw [hp]
  have hstep : dedupStep sim θ st1.g st1.labels st1.topics st1.dels n =
      some ⟨migrateEdges st1.g n p, st1.labels, st1.topics, st1.dels ++ [n]⟩ :=
    dedupStep_merge hlab hsp hz
  constructor
  · -- n does not survive: it is in the final delete list
    unfold GraphContext.deduplicate at hrun
    cases hF : dedupFold sim θ g.nodes ⟨g, [], [], []⟩ with
    | none => rw [hF] at hrun; exact absurd hrun (by simp)
    | some stF =>
      rw [hF] at hrun
      have heq := Option.some_injective _ hrun
      have hg' : stF.g.delete stF.dels = gfin := congrArg Prod.fst heq
      have hnF : n ∈ stF.dels := by
        rw [hsplit, dedupFold_append, hfold] at hF
        simp only [dedupFold, hstep] at hF
        exact (dedupFold_inv hF).2.2.1 n (by simp)
      intro hmem
      rw [← hg'] at hmem
      unfold Graph.delete at hmem
      simp only [List.mem_filter] at hmem
      rw [List.elem_eq_true_of_mem hnF] at hmem
      exact absurd hmem.2 (by simp)
  · intro ta hta hne
    exact migrate_fold_lookup p (pyAdj st1.g n) st1.g
      (pyAdj_keys_nodup st1.g n) ta hta hne

/-- Witness for C3 on the `Linux`/`Linux OS`/`Unix` instance: the
`Linux OS` node (handle 2, scanned after the `Linux` node, handle 1) has
best score 0.95 against the registered label `Linux`, its primary handle 1
is truthy, it does not survive, and its outgoing edge to node 3 is
migrated. -/
theorem c3_duplicate_step_witness :
    ¬ (2 : Nat) ∈ (⟨[1, 3],
        [(1, "id".data, "1".data), (1, "topic".data, "Linux".data),
         (3, "id".data, "3".data), (3, "topic".data, "Unix".data)],
        [(1, 3, [("rel".data, "a".data)])]⟩ : Graph).nodes ∧
    ∀ ta ∈ pyAdj (⟨gLinux, [(1, "Linux".data)], [("Linux".data, 1)],
        []⟩ : DState).g 2, ta.1 ≠ 1 →
      ∃ a', edgeLookup (migrateEdges (⟨gLinux, [(1, "Linux".data)],
          [("Linux".data, 1)], []⟩ : DState).g 2 1) 1 ta.1 = some a' ∧
        (edgeLookup (⟨gLinux, [(1, "Linux".data)], [("Linux".data, 1)],
            []⟩ : DState).g 1 ta.1 = none → a' = ta.2) :=
  c3_duplicate_step simLinux (mkRat 9 10) gLinux [1] [3] 2
    ⟨gLinux, [(1, "Linux".data)], [("Linux".data, 1)], []⟩
    "Linux OS".data 0 (mkRat 95 100) "Linux".data 1
    ⟨[1, 3],
     [(1, "id".data, "1".data), (1, "topic".data, "Linux".data),
      (3, "id".data, "3".data), (3, "topic".data, "Unix".data)],
     [(1, 3, [("rel".data, "a".data)])]⟩
    [(1, "Linux".data), (3, "Unix".data)]
    (by decide) (by decide) (by decide) (by decide) (by decide) (by decide)
    (by decide) (by decide) (by decide) (by decide)

/-- `Char.toLower` never produces an ASCII uppercase letter. -/
theorem toLower_not_upper (c : Char) :
    ¬(65 ≤ (Char.toLower c).toNat ∧ (Char.toLower c).toNat ≤ 90) := by
  unfold Char.toLower
  by_cases h : c.toNat ≥ 65 ∧ c.toNat ≤ 90
  · rw [if_pos h]
    have hv : (c.toNat + 32).isValidChar := Or.inl (by omega)
    have ht : (Char.ofNat (c.toNat + 32)).toNat = c.toNat + 32 := by
      unfold Char.ofNat
      rw [dif_pos hv]
      rfl
    rw [ht]
    omega
  · rw [if_neg h]
    exact h

/-- Lower-casing yields a string without ASCII uppercase letters. -/
theorem pyLower_noUpper (s : PyStr) : noUpper (pyLower s) := by
  intro c hc
  obtain ⟨c0, _, rfl⟩ := List.mem_map.mp hc
  exact toLower_not_upper c0

/-- `noUpper` transfers along character inclusion. -/
theorem noUpper_mono {s t : PyStr} (h : ∀ c ∈ t, c ∈ s) (hs : noUpper s) :
    noUpper t :=
  fun c hc => hs c (h c hc)

/-- The characters of a stripped string come from the original. -/
theorem pyStrip_subset (s : PyStr) : ∀ c ∈ pyStrip s, c ∈ s := by
  intro c hc
  unfold pyStrip stripLeft stripRight at hc
  have h1 := (List.dropWhile_sublist (l := ((s.reverse.dropWhile isPySpace)).reverse)
    (p := isPySpace)).subset hc
  have h2 := List.mem_reverse.mp h1
  have h3 := (List.dropWhile_sublist (l := s.reverse) (p := isPySpace)).subset h2
  exact List.mem_reverse.mp h3

/-- The characters of the split components come from the accumulator or the
input string. -/
theorem splitF_subset (sep : PyStr) :
    ∀ (fuel : Nat) (s acc comp : PyStr), comp ∈ splitF sep fuel s acc →
      ∀ c ∈ comp, c ∈ acc ∨ c ∈ s := by
  intro fuel
  induction fuel with
  | zero =>
    intro s acc comp hcomp c hc
    cases s with
    | nil =>
      simp only [splitF, List.mem_singleton] at hcomp
      subst hcomp
      exact Or.inl (List.mem_reverse.mp hc)
    | cons c0 rest =>
      simp only [splitF, List.mem_singleton] at hcomp
      subst hcomp
      rcases List.mem_append.mp hc with h | h
      · exact Or.inl (List.mem_reverse.mp h)
      · exact Or.inr h
  | succ fuel ih =>
    intro s acc comp hcomp c hc
    cases s with
    | nil =>
      simp only [splitF, List.mem_singleton] at hcomp
      subst hcomp
      exact Or.inl (List.mem_reverse.mp hc)
    | cons c0 rest =>
      simp only [splitF] at hcomp
      by_cases hpre : sep.isPrefixOf (c0 :: rest) = true
      · rw [if_pos hpre] at hcomp
        rcases List.mem_cons.mp hcomp with rfl | hrec
        · exact Or.inl (List.mem_reverse.mp hc)
        · rcases ih _ [] comp hrec c hc with h | h
          · cases h
          · exact Or.inr (List.mem_cons_of_mem c0
              ((List.drop_sublist _ _).subset h))
      · rw [if_neg hpre] at hcomp
        rcases ih rest (c0 :: acc) comp hcomp c hc with h | h
        · rcases List.mem_cons.mp h with rfl | h'
          · exact Or.inr (List.mem_cons_self c rest)
          · exact Or.inl h'
        · exact Or.inr (List.mem_cons_of_mem c0 h)

/-- The characters of `pySplit` components come from the input string. -/
theorem pySplit_subset (sep s : PyStr) :
    ∀ comp ∈ pySplit sep s, ∀ c ∈ comp, c ∈ s := by
  intro comp hcomp c hc
  rcases splitF_subset sep s.length s [] comp hcomp c hc with h | h
  · cases h
  · exact h

/-- The characters of a join come from the separator or the parts. -/
theorem pyJoin_subset (sep : PyStr) :
    ∀ (parts : List PyStr) (c : Char), c ∈ pyJoin sep parts →
      c ∈ sep ∨ ∃ part ∈ parts, c ∈ part := by
  intro parts
  induction parts with
  | nil => intro c hc; cases hc
  | cons x rest ih =>
    intro c hc
    cases rest with
    | nil =>
      exact Or.inr ⟨x, List.mem_singleton_self x, hc⟩
    | cons y t =>
      simp only [pyJoin] at hc
      rcases List.mem_append.mp hc with h | h
      · rcases List.mem_append.mp h with h' | h'
        · exact Or.inr ⟨x, List.mem_cons_self x (y :: t), h'⟩
        · exact Or.inl h'
      · rcases ih c h with h' | ⟨part, hp, hcp⟩
        · exact Or.inl h'
        · exact Or.inr ⟨part, List.mem_cons_of_mem x hp, hcp⟩

/-- The split worker never returns an empty component list. -/
theorem splitF_ne_nil (sep : PyStr) :
    ∀ (fuel : Nat) (s acc : PyStr), splitF sep fuel s acc ≠ [] := by
  intro fuel
  cases fuel with
  | zero =>
    intro s acc
    cases s <;> simp [splitF]
  | succ fuel =>
    intro s acc
    cases s with
    | nil => simp [splitF]
    | cons c rest =>
      simp only [splitF]
      by_cases hpre : sep.isPrefixOf (c :: rest) = true
      · rw [if_pos hpre]
        simp
      · rw [if_neg hpre]
        exact splitF_ne_nil sep fuel rest (c :: acc)

/-- Joining a cons with a non-empty tail. -/
theorem pyJoin_cons_ne (sep x : PyStr) (l : List PyStr) (h : l ≠ []) :
    pyJoin sep (x :: l) = x ++ sep ++ pyJoin sep l := by
  cases l with
  | nil => exact absurd rfl h
  | cons y t => rfl

/-- Joining the split with the separator restores the input (prefixed by the
reversed accumulator), provided the fuel covers the string. -/
theorem pyJoin_splitF (sep : PyStr) (hsep : sep ≠ []) :
    ∀ (fuel : Nat) (s acc : PyStr), s.length ≤ fuel →
      pyJoin sep (splitF sep fuel s acc) = acc.reverse ++ s := by
  intro fuel
  induction fuel with
  | zero =>
    intro s acc hlen
    cases s with
    | nil => simp [splitF, pyJoin]
    | cons c rest => simp at hlen
  | succ fuel ih =>
    intro s acc hlen
    cases s with
    | nil => simp [splitF, pyJoin]
    | cons c rest =>
      simp only [splitF]
      by_cases hpre : sep.isPrefixOf (c :: rest) = true
      · rw [if_pos hpre]
        rw [pyJoin_cons_ne sep _ _ (splitF_ne_nil sep fuel _ [])]
        have hrec : pyJoin sep (splitF sep fuel (rest.drop (sep.length - 1)) []) =
            rest.drop (sep.length - 1) := by
          have hlen' : (rest.drop (sep.length - 1)).length ≤ fuel := by
            simp only [List.length_drop]
            simp only [List.length_cons] at hlen
            omega
          simpa using ih (rest.drop (sep.length - 1)) [] hlen'
        rw [hrec]
        obtain ⟨t, ht⟩ := List.isPrefixOf_iff_prefix.mp hpre
        have hk : ∃ k, sep.length = k + 1 := by
          cases sep with
          | nil => exact absurd rfl hsep
          | cons a b => exact ⟨b.length, rfl⟩
        obtain ⟨k, hk⟩ := hk
        have htd : t = rest.drop (sep.length - 1) := by
          have h1 : (sep ++ t).drop sep.length = t := List.drop_left sep t
          rw [ht, hk, List.drop_succ_cons] at h1
          rw [← h1, hk]
          simp
        rw [← htd, List.append_assoc, ht]
      · rw [if_neg hpre]
        rw [ih rest (c :: acc) (by simp only [List.length_cons] at hlen; omega)]
        simp

/-- Joining the full split restores the input string. -/
theorem pyJoin_pySplit (sep s : PyStr) (hsep : sep ≠ []) :
    pyJoin sep (pySplit sep s) = s := by
  unfold pySplit
  simpa using pyJoin_splitF sep hsep s.length s [] le_rfl

/-- `getLastD` commutes with mapping `pyStrip` when the fallback is also
stripped. -/
theorem getLastD_map_strip :
    ∀ (l : List PyStr) (d : PyStr),
      (l.map pyStrip).getLastD (pyStrip d) = pyStrip (l.getLastD d) := by
  intro l
  induction l with
  | nil => intro d; rfl
  | cons x t ih =>
    intro d
    simp only [List.map_cons]
    rw [List.getLastD_cons, List.getLastD_cons]
    exact ih x

/-- The last parsed concept segment is the strip of the last raw segment. -/
theorem getLastD_map_strip0 (l : List PyStr) :
    (l.map pyStrip).getLastD [] = pyStrip (l.getLastD []) :=
  getLastD_map_strip l []

/-- The defaulted last element of a non-empty list is a member. -/
theorem getLastD_mem {α : Type} : ∀ (l : List α) (d : α), l ≠ [] →
    l.getLastD d ∈ l := by
  intro l
  induction l with
  | nil => intro d h; exact absurd rfl h
  | cons x t ih =>
    intro d _
    rw [List.getLastD_cons]
    by_cases ht : t = []
    · subst ht
      simp [List.getLastD]
    · exact List.mem_cons_of_mem x (ih x ht)

/-- A join decomposes as some prefix followed by the last part. -/
theorem pyJoin_last (sep : PyStr) :
    ∀ (l : List PyStr) (d : PyStr), l ≠ [] →
      ∃ pre, pyJoin sep l = pre ++ l.getLastD d := by
  intro l
  induction l with
  | nil => intro d h; exact absurd rfl h
  | cons x t ih =>
    intro d _
    cases t with
    | nil => exact ⟨[], rfl⟩
    | cons y t' =>
      obtain ⟨pre', hpre'⟩ := ih x (by simp)
      refine ⟨x ++ sep ++ pre', ?_⟩
      rw [List.getLastD_cons]
      rw [pyJoin_cons_ne sep x (y :: t') (by simp), hpre']
      simp [List.append_assoc]

/-- Dropping an all-satisfying block in front of `dropWhile`. -/
theorem dropWhile_all_append (p : Char → Bool) :
    ∀ (w l : List Char), (∀ c ∈ w, p c = true) →
      List.dropWhile p (w ++ l) = List.dropWhile p l := by
  intro w
  induction w with
  | nil => intro l _; rfl
  | cons c t ih =>
    intro l h
    simp only [List.cons_append, List.dropWhile_cons]
    rw [h c (List.mem_cons_self c t), if_pos rfl]
    exact ih l (fun c' hc' => h c' (List.mem_cons_of_mem c hc'))

/-- Every string splits as leading whitespace, its stripped core, and
trailing whitespace. -/
theorem pyStrip_decomp (s : PyStr) :
    ∃ w1 w2, s = w1 ++ pyStrip s ++ w2 ∧
      (∀ c ∈ w1, isPySpace c = true) ∧ (∀ c ∈ w2, isPySpace c = true) := by
  have h2 : s = stripRight s ++ (s.reverse.takeWhile isPySpace).reverse := by
    unfold stripRight
    rw [← List.reverse_append, List.takeWhile_append_dropWhile, List.reverse_reverse]
  have h1 : stripRight s =
      (stripRight s).takeWhile isPySpace ++ pyStrip s := by
    unfold pyStrip stripLeft
    rw [List.takeWhile_append_dropWhile]
  refine ⟨(stripRight s).takeWhile isPySpace,
    (s.reverse.takeWhile isPySpace).reverse, ?_, ?_, ?_⟩
  · rw [← h1, ← h2]
  · intro c hc
    exact List.mem_takeWhile_imp hc
  · intro c hc
    exact List.mem_takeWhile_imp (List.mem_reverse.mp hc)

/-- Appending trailing whitespace does not change the stripped string. -/
theorem pyStrip_append_ws (a w : PyStr) (hw : ∀ c ∈ w, isPySpace c = true) :
    pyStrip (a ++ w) = pyStrip a := by
  unfold pyStrip stripRight
  rw [List.reverse_append]
  rw [dropWhile_all_append isPySpace w.reverse a.reverse
    (fun c hc => hw c (List.mem_reverse.mp hc))]

/-- Splitting `l ++ [c] = u ++ v` with `v` non-empty: `v` ends in `c`. -/
theorem append_singleton_split {α : Type} {l u v : List α} {c : α}
    (h : l ++ [c] = u ++ v) (hv : v ≠ []) :
    ∃ v', v = v' ++ [c] ∧ l = u ++ v' := by
  rcases List.append_eq_append_iff.mp h with ⟨a', ha1, ha2⟩ | ⟨c', hc1, hc2⟩
  · cases a' with
    | nil =>
      refine ⟨[], ?_, ?_⟩
      · simpa using ha2.symm
      · simpa using ha1.symm
    | cons x t =>
      simp only [List.cons_append] at ha2
      injection ha2 with h3 h4
      have hv0 : v = [] := by
        cases t with
        | nil => simpa using h4.symm
        | cons z t2 => exact absurd h4.symm (by simp)
      exact absurd hv0 hv
  · exact ⟨c', hc2, hc1⟩

/-- A reversed accumulator protected by the scan invariant contains no
occurrence of the separator. -/
theorem acc_no_sub (sep : PyStr) (hsep : sep ≠ []) (s acc : PyStr)
    (hinv : ∀ u v, acc.reverse = u ++ v → v ≠ [] →
      sep.isPrefixOf (v ++ s) = false) :
    ¬ hasSub sep acc.reverse := by
  rintro ⟨a, b, hab⟩
  have hinv' := hinv a (sep ++ b) (by rw [hab, List.append_assoc])
    (by cases sep with
        | nil => exact absurd rfl hsep
        | cons x t => simp)
  have htrue : sep.isPrefixOf ((sep ++ b) ++ s) = true :=
    List.isPrefixOf_iff_prefix.mpr ⟨b ++ s, by simp⟩
  rw [htrue] at hinv'
  exact Bool.noConfusion hinv'

/-- No component produced by the split worker contains an occurrence of the
separator (leftmost non-overlapping scanning). -/
theorem splitF_no_sub (sep : PyStr) (hsep : sep ≠ []) :
    ∀ (fuel : Nat) (s acc : PyStr), s.length ≤ fuel →
      (∀ u v, acc.reverse = u ++ v → v ≠ [] →
        sep.isPrefixOf (v ++ s) = false) →
      ∀ comp ∈ splitF sep fuel s acc, ¬ hasSub sep comp := by
  intro fuel
  induction fuel with
  | zero =>
    intro s acc hlen hinv comp hcomp
    cases s with
    | nil =>
      simp only [splitF, List.mem_singleton] at hcomp
      subst hcomp
      exact acc_no_sub sep hsep [] acc hinv
    | cons c0 rest => simp at hlen
  | succ fuel ih =>
    intro s acc hlen hinv comp hcomp
    cases s with
    | nil =>
      simp only [splitF, List.mem_singleton] at hcomp
      subst hcomp
      exact acc_no_sub sep hsep [] acc hinv
    | cons c0 rest =>
      simp only [splitF] at hcomp
      by_cases hpre : sep.isPrefixOf (c0 :: rest) = true
      · rw [if_pos hpre] at hcomp
        rcases List.mem_cons.mp hcomp with rfl | hrec
        · exact acc_no_sub sep hsep (c0 :: rest) acc hinv
        · refine ih (rest.drop (sep.length - 1)) [] ?_ ?_ comp hrec
          · simp only [List.length_drop]
            simp only [List.length_cons] at hlen
            omega
          · intro u v huv hv
            rw [List.reverse_nil] at huv
            exact absurd (List.append_eq_nil.mp huv.symm).2 hv
      · rw [if_neg hpre] at hcomp
        refine ih rest (c0 :: acc)
          (by simp only [List.length_cons] at hlen; omega) ?_ comp hcomp
        intro u v huv hv
        rw [List.reverse_cons] at huv
        obtain ⟨v', hv', hl⟩ := append_singleton_split huv hv
        have hpf : sep.isPrefixOf (c0 :: rest) = false := by
          cases hb : sep.isPrefixOf (c0 :: rest)
          · rfl
          · exact absurd hb hpre
        cases v' with
        | nil =>
          rw [hv']
          simpa using hpf
        | cons x t =>
          have hval := hinv u (x :: t) hl (by simp)
          rw [hv']
          simpa [List.append_assoc] using hval

/-- No `pySplit` component contains the separator. -/
theorem pySplit_no_sub (sep s : PyStr) (hsep : sep ≠ []) :
    ∀ comp ∈ pySplit sep s, ¬ hasSub sep comp := by
  refine splitF_no_sub sep hsep s.length s [] le_rfl ?_
  intro u v huv hv
  rw [List.reverse_nil] at huv
  exact absurd (List.append_eq_nil.mp huv.symm).2 hv

/-- When the split has at least two parts, `pySplit1` returns the first
part and the re-joined remainder. -/
theorem pySplit1_of_two {sep s : PyStr} {c0 c1 : PyStr} {t : List PyStr}
    (h : pySplit sep s = c0 :: c1 :: t) :
    pySplit1 sep s = [c0, pyJoin sep (c1 :: t)] := by
  unfold pySplit1
  rw [h]

/-- A positive containment test yields at least two split parts. -/
theorem pyContains_two {sep s : PyStr} (h : pyContains sep s = true) :
    ∃ c0 c1 t, pySplit sep s = c0 :: c1 :: t := by
  unfold pyContains at h
  have h2 : 2 ≤ (pySplit sep s).length := of_decide_eq_true h
  cases hs : pySplit sep s with
  | nil => rw [hs] at h2; simp at h2
  | cons c0 rest =>
    cases rest with
    | nil => rw [hs] at h2; simp at h2
    | cons c1 t => exact ⟨c0, c1, t, rfl⟩

/-- Shape of a parse that returns a free query: the stripped last
arrow-segment splits at the marker into at least two parts, and the free
query is the strip of the re-joined remainder after the first marker. -/
theorem parse_query_char {q fq : PyStr}
    (h : (GraphContext.parse q).1 = some fq) :
    ∃ m0 m1 mt,
      pySplit gqMarker
        (pyStrip ((pySplit arrowSep (pyLower (pyStrip q))).getLastD []))
        = m0 :: m1 :: mt ∧
      fq = pyStrip (pyJoin gqMarker (m1 :: mt)) := by
  simp only [GraphContext.parse] at h
  by_cases h1 : (pyContains arrowSep q
      || gqMarker.isPrefixOf (pyLower (pyStrip q))) = true
  · rw [if_pos h1] at h
    by_cases h2 : pyContains gqMarker
        (((pySplit arrowSep (pyLower (pyStrip q))).map pyStrip).getLastD [])
        = true
    · rw [if_pos h2] at h
      have hlast := getLastD_map_strip0 (pySplit arrowSep (pyLower (pyStrip q)))
      rw [hlast] at h2
      obtain ⟨m0, m1, mt, hsp⟩ := pyContains_two h2
      rw [hlast, pySplit1_of_two hsp] at h
      simp only [List.map_cons, List.map_nil] at h
      exact ⟨m0, m1, mt, hsp, (Option.some_injective _ h).symm⟩
    · rw [if_neg h2] at h
      exact absurd h (by simp)
  · rw [if_neg h1] at h
    exact absurd h (by simp)

/-- Every character of every returned concept comes from the lower-cased
trimmed question or from the marker. -/
theorem parse_concepts_char {q : PyStr} {cs : List PyStr}
    (h : (GraphContext.parse q).2.1 = some cs) :
    ∀ s0 ∈ cs, ∀ c ∈ s0, c ∈ pyLower (pyStrip q) ∨ c ∈ gqMarker := by
  simp only [GraphContext.parse] at h
  by_cases h1 : (pyContains arrowSep q
      || gqMarker.isPrefixOf (pyLower (pyStrip q))) = true
  · rw [if_pos h1] at h
    by_cases h2 : pyContains gqMarker
        (((pySplit arrowSep (pyLower (pyStrip q))).map pyStrip).getLastD [])
        = true
    · rw [if_pos h2] at h
      have hlast := getLastD_map_strip0 (pySplit arrowSep (pyLower (pyStrip q)))
      rw [hlast] at h2
      obtain ⟨m0, m1, mt, hsp⟩ := pyContains_two h2
      rw [hlast, pySplit1_of_two hsp] at h
      simp only [List.map_cons, List.map_nil, List.headD_cons] at h
      have hm0 : ∀ c ∈ pyStrip m0, c ∈ pyLower (pyStrip q) := by
        intro c hc
        have h3 : c ∈ m0 := pyStrip_subset m0 c hc
        have h4 : m0 ∈ pySplit gqMarker
            (pyStrip ((pySplit arrowSep (pyLower (pyStrip q))).getLastD [])) := by
          rw [hsp]
          exact List.mem_cons_self _ _
        have h5 := pySplit_subset _ _ m0 h4 c h3
        have h6 := pyStrip_subset _ c h5
        have h7 : ((pySplit arrowSep (pyLower (pyStrip q))).getLastD []) ∈
            pySplit arrowSep (pyLower (pyStrip q)) :=
          getLastD_mem _ [] (splitF_ne_nil arrowSep _ _ _)
        exact pySplit_subset _ _ _ h7 c h6
      have hcs0 : ∀ s0 ∈ ((pySplit arrowSep (pyLower (pyStrip q))).map
          pyStrip).dropLast, ∀ c ∈ s0, c ∈ pyLower (pyStrip q) := by
        intro s0 hs0 c hc
        have hmem := (List.dropLast_sublist _).subset hs0
        obtain ⟨comp, hcomp, rfl⟩ := List.mem_map.mp hmem
        exact pySplit_subset _ _ comp hcomp c (pyStrip_subset comp c hc)
      by_cases hh : (pyStrip m0).isEmpty = true
      · rw [if_pos hh] at h
        have hcs := Option.some_injective _ h
        intro s0 hs0 c hc
        rw [← hcs] at hs0
        exact Or.inl (hcs0 s0 hs0 c hc)
      · rw [if_neg hh] at h
        have hcs := Option.some_injective _ h
        intro s0 hs0 c hc
        rw [← hcs] at hs0
        rcases List.mem_append.mp hs0 with hs0' | hs0'
        · exact Or.inl (hcs0 s0 hs0' c hc)
        · rw [List.mem_singleton] at hs0'
          subst hs0'
          exact Or.inl (hm0 c hc)
    · rw [if_neg h2] at h
      have hcs := Option.some_injective _ h
      intro s0 hs0 c hc
      rw [← hcs] at hs0
      obtain ⟨comp, hcomp, rfl⟩ := List.mem_map.mp hs0
      exact Or.inl (pySplit_subset _ _ comp hcomp c (pyStrip_subset comp c hc))
  · rw [if_neg h1] at h
    exact absurd h (by simp)

/-- Claim C9: the parser lower-cases the whole question before splitting.
Whenever a free query is returned it is the trimmed text following a
`gq: ` marker of the lower-cased trimmed question, taken inside the last
arrow-segment (the remainder contains no `->`), so neither the free query
nor any returned concept contains an ASCII uppercase character. -/
theorem c9_parse_lowercase (q : PyStr) :
    (∀ fq, (GraphContext.parse q).1 = some fq →
       noUpper fq ∧
       ∃ pre rest, pyLower (pyStrip q) = pre ++ gqMarker ++ rest ∧
         ¬ hasSub arrowSep rest ∧ fq = pyStrip rest) ∧
    (∀ cs, (GraphContext.parse q).2.1 = some cs → ∀ s0 ∈ cs, noUpper s0) := by
  have hmarker : noUpper gqMarker := by
    unfold noUpper
    decide
  have hlow : noUpper (pyLower (pyStrip q)) := pyLower_noUpper (pyStrip q)
  constructor
  · intro fq hfq
    obtain ⟨m0, m1, mt, hsp, hfqeq⟩ := parse_query_char hfq
    set lowered := pyLower (pyStrip q) with hlowdef
    set comps := pySplit arrowSep lowered with hcompsdef
    set lastRaw := comps.getLastD [] with hlastdef
    set R := pyJoin gqMarker (m1 :: mt) with hRdef
    have hjoin : pyJoin arrowSep comps = lowered :=
      pyJoin_pySplit arrowSep lowered (by decide)
    obtain ⟨pre0, hpre0⟩ := pyJoin_last arrowSep comps []
      (splitF_ne_nil arrowSep _ _ _)
    have ha : lowered = pre0 ++ lastRaw := by rw [← hjoin, hpre0]
    obtain ⟨w1, w2, hbw, hw1, hw2⟩ := pyStrip_decomp lastRaw
    have hcore : pyStrip lastRaw = m0 ++ gqMarker ++ R := by
      have h1 : pyJoin gqMarker (pySplit gqMarker (pyStrip lastRaw)) =
          pyStrip lastRaw :=
        pyJoin_pySplit gqMarker (pyStrip lastRaw) (by decide)
      rw [hsp] at h1
      rw [← h1, pyJoin_cons_ne gqMarker m0 (m1 :: mt) (by simp)]
    have hfull : lastRaw = w1 ++ (m0 ++ gqMarker ++ R) ++ w2 := by
      conv_lhs => rw [hbw]
      rw [hcore]
    have hlastmem : lastRaw ∈ comps :=
      getLastD_mem comps [] (splitF_ne_nil arrowSep _ _ _)
    constructor
    · rw [hfqeq]
      intro c hc
      have h1 : c ∈ R := pyStrip_subset R c hc
      rcases pyJoin_subset gqMarker (m1 :: mt) c h1 with h2 | ⟨part, hp, hcp⟩
      · exact hmarker c h2
      · have h3 : part ∈ pySplit gqMarker (pyStrip lastRaw) := by
          rw [hsp]
          exact List.mem_cons_of_mem m0 hp
        have h4 := pySplit_subset _ _ part h3 c hcp
        have h5 := pyStrip_subset lastRaw c h4
        have h7 := pySplit_subset arrowSep lowered lastRaw hlastmem c h5
        exact hlow c h7
    · refine ⟨pre0 ++ w1 ++ m0, R ++ w2, ?_, ?_, ?_⟩
      · rw [ha, hfull]
        simp [List.append_assoc]
      · rintro ⟨a, b, hab⟩
        have hlr : hasSub arrowSep lastRaw := by
          refine ⟨w1 ++ m0 ++ gqMarker ++ a, b, ?_⟩
          rw [hfull]
          simp only [List.append_assoc]
          rw [hab]
          simp [List.append_assoc]
        exact pySplit_no_sub arrowSep lowered (by decide) lastRaw hlastmem hlr
      · rw [hfqeq, pyStrip_append_ws R w2 hw2]
  · intro cs hcs s0 hs0 c hc
    rcases parse_concepts_char hcs s0 hs0 c hc with h | h
    · exact hlow c h
    · exact hmarker c h

/-- Witness for C9 on a mixed-case graph query. -/
theorem c9_parse_lowercase_witness :
    noUpper "tell me".data ∧
    ∃ pre rest, pyLower (pyStrip "Linux -> MacOS gq: Tell Me".data) =
        pre ++ gqMarker ++ rest ∧ ¬ hasSub arrowSep rest ∧
        "tell me".data = pyStrip rest :=
  (c9_parse_lowercase "Linux -> MacOS gq: Tell Me".data).1 "tell me".data
    (by decide)
